import Mathlib

set_option maxRecDepth 10000

/-!
Formal model of the sitemap-generator crawl engine.

Strings of the Python source are modelled as `List Nat` of Unicode code
points (Python `str` values made of Unicode scalar values; ASCII codes
coincide with byte values).  The model follows the source of
`src/sitemap_generator` and `src/playwright_sitemap_generator`:

* `pyUrlsplit`, `pyUrlparse`, `pyUrlunsplit`, `pyUrlunparse`, `pyQuote`,
  `pyUnquote` model the CPython `urllib.parse` functions used by the
  crawler (modern CPython semantics: WHATWG lstrip of C0/space, removal
  of tab/CR/LF).  The `ValueError` validation paths of `urlsplit`
  (bracketed-IPv6 checks, the NFKC netloc check) only raise and never
  change a returned value; they are not modelled, so on inputs where
  CPython raises the model returns the parse that would otherwise result.
* `asciiLower` models `str.lower` on ASCII letters and is the identity on
  all other code points.
* the UTF-8 error-replacement policy of `pyUnquote` inserts U+FFFD for
  invalid byte sequences; the granularity of replacement for truncated
  multi-byte sequences approximates CPython and is never exercised when
  decoding output of `pyQuote` (which is always valid).
-/

/-! ## Character classes (ASCII) -/

def isAsciiUpper (c : Nat) : Bool := 65 ≤ c && c ≤ 90

def isAsciiLowerC (c : Nat) : Bool := 97 ≤ c && c ≤ 122

def isAsciiAlpha (c : Nat) : Bool := isAsciiUpper c || isAsciiLowerC c

def isAsciiDigit (c : Nat) : Bool := 48 ≤ c && c ≤ 57

def isAsciiAlnum (c : Nat) : Bool := isAsciiAlpha c || isAsciiDigit c

/-- Model of Python `str.lower` restricted to ASCII letters (identity on
all other code points). -/
def asciiLower (c : Nat) : Nat := if isAsciiUpper c then c + 32 else c

def pyLower (s : List Nat) : List Nat := s.map asciiLower

/-! ## UTF-8 encoding and decoding -/

/-- UTF-8 encoding of one Unicode scalar value (as in `str.encode`). -/
def utf8EncodeChar (c : Nat) : List Nat :=
  if c < 128 then [c]
  else if c < 2048 then [192 + c / 64, 128 + c % 64]
  else if c < 65536 then [224 + c / 4096, 128 + (c / 64) % 64, 128 + c % 64]
  else [240 + c / 262144, 128 + (c / 4096) % 64, 128 + (c / 64) % 64, 128 + c % 64]

/-- A Unicode scalar value: what a Python `str` character may hold once it
is UTF-8 encodable (surrogates make `quote` raise, so they are outside the
model). -/
def validChar (c : Nat) : Prop := c < 1114112 ∧ ¬(55296 ≤ c ∧ c ≤ 57343)

instance (c : Nat) : Decidable (validChar c) := by unfold validChar; infer_instance

def isCont (b : Nat) : Bool := 128 ≤ b && b ≤ 191

/-- Range check for the second byte of a three-byte sequence (CPython's
strict UTF-8 decoder: no overlongs, no surrogates). -/
def cont2ok (b1 b2 : Nat) : Bool :=
  if b1 = 224 then 160 ≤ b2 && b2 ≤ 191
  else if b1 = 237 then 128 ≤ b2 && b2 ≤ 159
  else isCont b2

/-- Range check for the second byte of a four-byte sequence. -/
def cont4ok (b1 b2 : Nat) : Bool :=
  if b1 = 240 then 144 ≤ b2 && b2 ≤ 191
  else if b1 = 244 then 128 ≤ b2 && b2 ≤ 143
  else isCont b2

/-- One decoding step for a strict UTF-8 decoder with replacement: given
the first byte and the remaining bytes, return the decoded scalar value
(U+FFFD on malformed input) and the bytes not consumed. -/
def utf8Step (b1 : Nat) (rest : List Nat) : Nat × List Nat :=
  if b1 < 128 then (b1, rest)
  else if 194 ≤ b1 && b1 ≤ 223 then
    match rest with
    | b2 :: rest2 =>
      if isCont b2 then ((b1 - 192) * 64 + (b2 - 128), rest2) else (65533, b2 :: rest2)
    | [] => (65533, [])
  else if 224 ≤ b1 && b1 ≤ 239 then
    match rest with
    | b2 :: b3 :: rest3 =>
      if cont2ok b1 b2 && isCont b3 then
        ((b1 - 224) * 4096 + (b2 - 128) * 64 + (b3 - 128), rest3)
      else (65533, b2 :: b3 :: rest3)
    | other => (65533, other)
  else if 240 ≤ b1 && b1 ≤ 244 then
    match rest with
    | b2 :: b3 :: b4 :: rest4 =>
      if cont4ok b1 b2 && isCont b3 && isCont b4 then
        ((b1 - 240) * 262144 + (b2 - 128) * 4096 + (b3 - 128) * 64 + (b4 - 128), rest4)
      else (65533, b2 :: b3 :: b4 :: rest4)
    | other => (65533, other)
  else (65533, rest)

/-- Fuel-driven iteration of `utf8Step` (one unit of fuel per decoded
character; a list of length n never needs more than n). -/
def utf8DecodeAux : Nat → List Nat → List Nat
  | 0, _ => []
  | _ + 1, [] => []
  | fuel + 1, b1 :: rest =>
    let s := utf8Step b1 rest
    s.1 :: utf8DecodeAux fuel s.2

/-- Total UTF-8 decoder with U+FFFD replacement (`bytes.decode("utf-8",
"replace")`).  On valid encodings it is exact; the replacement granularity
for malformed sequences approximates CPython's maximal-subsequence policy
and is unreachable from `pyQuote` output. -/
def utf8DecodeReplace (bs : List Nat) : List Nat := utf8DecodeAux bs.length bs

/-! ## Percent encoding: `urllib.parse.quote` and `urllib.parse.unquote` -/

def hexDigitVal (c : Nat) : Option Nat :=
  if 48 ≤ c && c ≤ 57 then some (c - 48)
  else if 65 ≤ c && c ≤ 70 then some (c - 55)
  else if 97 ≤ c && c ≤ 102 then some (c - 87)
  else none

/-- Upper-case hex digit, as `quote` emits (`%AB`). -/
def hexUpperDigit (n : Nat) : Nat := if n < 10 then 48 + n else 55 + n

/-- Percent-encoding of one byte: `%` followed by two upper-case hex digits. -/
def pctEncodeByte (b : Nat) : List Nat := [37, hexUpperDigit (b / 16), hexUpperDigit (b % 16)]

/-- Characters `quote` never encodes regardless of `safe`: ASCII
alphanumerics and `_.-~`. -/
def quoteAlwaysSafe (c : Nat) : Bool :=
  isAsciiAlnum c || c = 95 || c = 46 || c = 45 || c = 126

/-- Model of `urllib.parse.quote(s, safe)`: every character outside the
safe set is UTF-8 encoded and percent-escaped. -/
def pyQuoteChar (safe : List Nat) (c : Nat) : List Nat :=
  if quoteAlwaysSafe c || safe.contains c then [c]
  else (utf8EncodeChar c).flatMap pctEncodeByte

def pyQuote (safe : List Nat) (s : List Nat) : List Nat := s.flatMap (pyQuoteChar safe)

/-- Token stream of `unquote`: literal characters and percent-decoded bytes. -/
inductive QTok where
  | lit (c : Nat)
  | byt (b : Nat)
deriving DecidableEq, Repr

/-- First pass of `unquote`: replace each valid `%XX` by the byte it
denotes, leave everything else (including stray `%`) literal. -/
def pctTokenize : List Nat → List QTok
  | [] => []
  | 37 :: h1 :: h2 :: rest =>
    match hexDigitVal h1, hexDigitVal h2 with
    | some a, some b => .byt (16 * a + b) :: pctTokenize rest
    | _, _ => .lit 37 :: pctTokenize (h1 :: h2 :: rest)
  | c :: rest => .lit c :: pctTokenize rest

/-- Second pass of `unquote`: maximal runs of percent-decoded bytes are
UTF-8 decoded with replacement, literal characters pass through.  This
matches CPython's run splitting: an ASCII literal can never combine with
adjacent decoded bytes into a longer valid sequence, and a non-ASCII
literal splits the run in CPython as well. -/
def decodeLoop (acc : List Nat) : List QTok → List Nat
  | [] => utf8DecodeReplace acc
  | .byt b :: rest => decodeLoop (acc ++ [b]) rest
  | .lit c :: rest => utf8DecodeReplace acc ++ c :: decodeLoop [] rest

/-- Model of `urllib.parse.unquote(s)` with UTF-8 / replace. -/
def pyUnquote (s : List Nat) : List Nat := decodeLoop [] (pctTokenize s)

/-! ## CPython `urllib.parse`: splitting and joining -/

/-- Characters allowed in a scheme after the first (letters, digits, `+-.`;
CPython `scheme_chars`). -/
def isSchemeChar (c : Nat) : Bool := isAsciiAlnum c || c = 43 || c = 45 || c = 46

/-- Split a list at the first occurrence of a delimiter (CPython
`str.find` + slicing; `none` when the delimiter does not occur). -/
def splitOnFirst (d : Nat) : List Nat → Option (List Nat × List Nat)
  | [] => none
  | c :: rest =>
    if c = d then some ([], rest)
    else (splitOnFirst d rest).map (fun p => (c :: p.1, p.2))

/-- Split a list at the last occurrence of a delimiter (CPython `rfind`). -/
def splitOnLast (d : Nat) (s : List Nat) : Option (List Nat × List Nat) :=
  match splitOnFirst d s.reverse with
  | some p => some (p.2.reverse, p.1.reverse)
  | none => none

/-- WHATWG C0-control-or-space class (`urlsplit` lstrips these). -/
def isC0OrSpace (c : Nat) : Bool := c ≤ 32

/-- Bytes `urlsplit` deletes anywhere in the URL: tab, CR, LF. -/
def isUnsafeUrlByte (c : Nat) : Bool := c = 9 || c = 13 || c = 10

/-- The sanitizing prefix of `urlsplit`: lstrip C0 controls and spaces,
then remove every tab, CR and LF. -/
def urlStrip (s : List Nat) : List Nat :=
  (s.dropWhile isC0OrSpace).filter (fun c => !isUnsafeUrlByte c)

structure UrlSplitResult where
  scheme : List Nat
  netloc : List Nat
  path : List Nat
  query : List Nat
  fragment : List Nat
deriving DecidableEq, Repr

/-- The scheme phase of `urlsplit`: the text before the first colon when
it is a valid scheme name (lower-cased), together with the remainder. -/
def splitScheme (url : List Nat) : List Nat × List Nat :=
  match splitOnFirst 58 url with
  | some (before, after) =>
    match before with
    | c :: _ =>
      if isAsciiAlpha c && before.all isSchemeChar then (pyLower before, after)
      else ([], url)
    | [] => ([], url)
  | none => ([], url)

/-- A netloc delimiter: `/`, `?` or `#` ends the netloc. -/
def isNetlocEnd (c : Nat) : Bool := c = 47 || c = 63 || c = 35

/-- The netloc phase of `urlsplit`: after a leading `//`, the netloc runs
up to the first of `/?#` (CPython `_splitnetloc`). -/
def splitNetloc (url : List Nat) : List Nat × List Nat :=
  match url with
  | 47 :: 47 :: rest =>
    (rest.takeWhile (fun c => !isNetlocEnd c), rest.dropWhile (fun c => !isNetlocEnd c))
  | _ => ([], url)

/-- The fragment phase: split at the first `#`. -/
def splitFragment (url : List Nat) : List Nat × List Nat :=
  match splitOnFirst 35 url with
  | some p => p
  | none => (url, [])

/-- The query phase: split at the first `?`. -/
def splitQuery (url : List Nat) : List Nat × List Nat :=
  match splitOnFirst 63 url with
  | some p => p
  | none => (url, [])

/-- Model of `urllib.parse.urlsplit` (with `allow_fragments=True`).  The
`ValueError`-raising validations (IPv6 bracket checks, `_checknetloc`) are
omitted: they never alter a returned value. -/
def pyUrlsplit (url0 : List Nat) : UrlSplitResult :=
  let p1 := splitScheme (urlStrip url0)
  let p2 := splitNetloc p1.2
  let p3 := splitFragment p2.2
  let p4 := splitQuery p3.1
  ⟨p1.1, p2.1, p4.1, p4.2, p3.2⟩

/-- CPython `uses_netloc`: schemes for which `urlunsplit` re-creates a
`//` netloc section (the names, in order; the first entry is the empty
scheme, which the truthiness guard in `urlunsplit` filters out). -/
def usesNetloc : List (List Nat) :=
  [[],
   [102, 116, 112],                           -- ftp
   [104, 116, 116, 112],                      -- http
   [103, 111, 112, 104, 101, 114],            -- gopher
   [110, 110, 116, 112],                      -- nntp
   [116, 101, 108, 110, 101, 116],            -- telnet
   [105, 109, 97, 112],                       -- imap
   [119, 97, 105, 115],                       -- wais
   [102, 105, 108, 101],                      -- file
   [109, 109, 115],                           -- mms
   [104, 116, 116, 112, 115],                 -- https
   [115, 104, 116, 116, 112],                 -- shttp
   [115, 110, 101, 119, 115],                 -- snews
   [112, 114, 111, 115, 112, 101, 114, 111],  -- prospero
   [114, 116, 115, 112],                      -- rtsp
   [114, 116, 115, 112, 115],                 -- rtsps
   [114, 116, 115, 112, 117],                 -- rtspu
   [114, 115, 121, 110, 99],                  -- rsync
   [115, 118, 110],                           -- svn
   [115, 118, 110, 43, 115, 115, 104],        -- svn+ssh
   [115, 102, 116, 112],                      -- sftp
   [110, 102, 115],                           -- nfs
   [103, 105, 116],                           -- git
   [103, 105, 116, 43, 115, 115, 104],        -- git+ssh
   [119, 115],                                -- ws
   [119, 115, 115]]                           -- wss

/-- CPython `uses_params`: schemes for which `urlparse` splits the params
component off the path (includes the empty scheme). -/
def usesParams : List (List Nat) :=
  [[],
   [102, 116, 112],                           -- ftp
   [104, 100, 108],                           -- hdl
   [112, 114, 111, 115, 112, 101, 114, 111],  -- prospero
   [104, 116, 116, 112],                      -- http
   [105, 109, 97, 112],                       -- imap
   [104, 116, 116, 112, 115],                 -- https
   [115, 104, 116, 116, 112],                 -- shttp
   [114, 116, 115, 112],                      -- rtsp
   [114, 116, 115, 112, 115],                 -- rtsps
   [114, 116, 115, 112, 117],                 -- rtspu
   [115, 105, 112],                           -- sip
   [115, 105, 112, 115],                      -- sips
   [109, 109, 115],                           -- mms
   [115, 102, 116, 112],                      -- sftp
   [116, 101, 108]]                           -- tel

/-- Model of CPython `_splitparams`: the params component is what follows
the first `;` of the last path segment. -/
def splitParams (url : List Nat) : List Nat × List Nat :=
  match splitOnLast 47 url with
  | some (pre, seg) =>
    match splitOnFirst 59 seg with
    | some (a, b) => (pre ++ 47 :: a, b)
    | none => (url, [])
  | none =>
    match splitOnFirst 59 url with
    | some (a, b) => (a, b)
    | none => (url, [])

structure UrlParseResult where
  scheme : List Nat
  netloc : List Nat
  path : List Nat
  params : List Nat
  query : List Nat
  fragment : List Nat
deriving DecidableEq, Repr

/-- Model of `urllib.parse.urlparse`: `urlsplit` plus the params split,
applied only for schemes in `uses_params`. -/
def pyUrlparse (url0 : List Nat) : UrlParseResult :=
  let sp := pyUrlsplit url0
  let pp : List Nat × List Nat :=
    if sp.scheme ∈ usesParams ∧ 59 ∈ sp.path then splitParams sp.path else (sp.path, [])
  ⟨sp.scheme, sp.netloc, pp.1, pp.2, sp.query, sp.fragment⟩

/-- Model of `urllib.parse.urlunsplit`: the `//` netloc section is
re-created when a netloc is present, or when the scheme is a known
netloc-using scheme and the path does not already start with `//`. -/
def pyUrlunsplit (scheme netloc url query fragment : List Nat) : List Nat :=
  let u1 :=
    if netloc ≠ [] ∨ (scheme ≠ [] ∧ scheme ∈ usesNetloc ∧ url.take 2 ≠ [47, 47]) then
      let u0 := if url ≠ [] ∧ url.take 1 ≠ [47] then 47 :: url else url
      47 :: 47 :: (netloc ++ u0)
    else url
  let u2 := if scheme ≠ [] then scheme ++ 58 :: u1 else u1
  let u3 := if query ≠ [] then u2 ++ 63 :: query else u2
  if fragment ≠ [] then u3 ++ 35 :: fragment else u3

/-- Model of `urllib.parse.urlunparse`. -/
def pyUrlunparse (scheme netloc url params query fragment : List Nat) : List Nat :=
  pyUrlunsplit scheme netloc (if params ≠ [] then url ++ 59 :: params else url) query fragment

/-! ## `Crawler._normalize_url` and `Crawler._full_normalize` -/

/-- The safe set used for paths in `Crawler._normalize_url`: the
characters of the string slash colon at-sign bang dollar ampersand
apostrophe star plus comma semicolon equals hyphen dot underscore tilde
(`/:@!$&`, apostrophe, `*+,;=-._~`). -/
def pathSafe : List Nat := [47, 58, 64, 33, 36, 38, 39, 42, 43, 44, 59, 61, 45, 46, 95, 126]

/-- The safe set used for queries: `pathSafe` plus question mark and
equals sign. -/
def querySafe : List Nat :=
  [47, 58, 64, 33, 36, 38, 39, 42, 43, 44, 59, 61, 45, 46, 95, 126, 63, 61]

/-- Model of the static method `Crawler._normalize_url`: lower-case scheme
and netloc, percent-normalize path and query, turn an empty path into `/`,
drop the fragment. -/
def normalizeUrl (url : List Nat) : List Nat :=
  let parsed := pyUrlparse url
  let scheme := pyLower parsed.scheme
  let netloc := pyLower parsed.netloc
  let path0 := pyQuote pathSafe (pyUnquote parsed.path)
  let path : List Nat := if path0 = [] then [47] else path0
  let query := pyQuote querySafe (pyUnquote parsed.query)
  pyUrlunparse scheme netloc path parsed.params query []

/-- Crawler configuration state relevant to URL handling, as computed in
`Crawler.__init__`: the scheme and the lower-cased netloc of the
normalized start URL. -/
structure CrawlerCfg where
  scheme : List Nat
  allowedDomain : List Nat
deriving DecidableEq, Repr

/-- Builds the URL-related crawler state from a start URL exactly as
`Crawler.__init__` does. -/
def mkCrawlerCfg (startUrl : List Nat) : CrawlerCfg :=
  let parsed := pyUrlsplit (normalizeUrl startUrl)
  ⟨parsed.scheme, pyLower parsed.netloc⟩

/-- Model of `Crawler._full_normalize`: `_normalize_url` plus rewriting
the scheme to the start URL's scheme for same-host URLs. -/
def fullNormalize (cfg : CrawlerCfg) (url : List Nat) : List Nat :=
  let normalized := normalizeUrl url
  let parsed := pyUrlparse normalized
  if parsed.scheme ≠ cfg.scheme ∧ parsed.netloc = cfg.allowedDomain then
    pyUrlunparse cfg.scheme parsed.netloc parsed.path parsed.params parsed.query []
  else normalized

/-! ## Crawler data model (`models/crawl_result.py`) -/

/-- Status of a crawled page (`PageStatus` of `sitemap_generator`). -/
inductive PageStatus where
  | PENDING
  | CRAWLING
  | OK
  | REDIRECT
  | REDIRECT_EXTERNAL
  | ERROR
  | TIMEOUT
  | SKIPPED
  | MAX_DEPTH
deriving DecidableEq, Repr

/-- The counters of `CrawlStats` that the crawler updates per URL. -/
structure CrawlStats where
  total_discovered : Nat := 0
  total_crawled : Nat := 0
  total_errors : Nat := 0
  total_skipped : Nat := 0
  total_2xx : Nat := 0
  total_3xx : Nat := 0
  total_4xx : Nat := 0
  total_5xx : Nat := 0
deriving DecidableEq, Repr

/-- Model of `Crawler._count_http_status`. -/
def countHttpStatus (st : CrawlStats) (statusCode : Nat) : CrawlStats :=
  let category := statusCode / 100
  if category = 2 then { st with total_2xx := st.total_2xx + 1 }
  else if category = 3 then { st with total_3xx := st.total_3xx + 1 }
  else if category = 4 then
    { st with total_4xx := st.total_4xx + 1, total_errors := st.total_errors + 1 }
  else if category = 5 then
    { st with total_5xx := st.total_5xx + 1, total_errors := st.total_errors + 1 }
  else st

/-! ## Per-URL crawl outcomes (`Crawler._crawl_url`)

One `UrlOutcome` abstracts how the processing of one dequeued URL ends:
blocked by robots.txt, cancelled after the result was created but before
`CRAWLING` was set, all retries exhausted while the result still carries
its initial `http_status_code = 0` (a pure transport error), all retries
exhausted after the failing fetch had already recorded a status — the
fetch helpers set `result.http_status_code` before extracting links, so
an exception raised afterwards inside the same `try` (for instance
`urljoin` rejecting a malformed IPv6 href) leaves the recorded status on
the `ERROR` result — or a completed fetch carrying the recorded
`redirect_url` (empty when the response had no redirect history) and the
recorded `http_status_code`.  `maxDepthPhantom` stands for the creation
of a `MAX_DEPTH` placeholder result in the link loop. -/

inductive UrlOutcome where
  | robotsSkipped
  | cancelledBeforeFetch
  | transportError
  | errorAfterStatus (status : Nat)
  | fetched (redirectUrl : List Nat) (status : Nat)
deriving DecidableEq, Repr

inductive CrawlEvent where
  | processUrl (o : UrlOutcome)
  | maxDepthPhantom
deriving DecidableEq, Repr

/-- The terminal `CrawlResult.status` assigned by `_crawl_url` for each
outcome (for `cancelledBeforeFetch` the result keeps its initial
`PENDING`, because `CRAWLING` is only set after the cancellation check). -/
def finalStatus (cfg : CrawlerCfg) : UrlOutcome → PageStatus
  | .robotsSkipped => .SKIPPED
  | .cancelledBeforeFetch => .PENDING
  | .transportError => .ERROR
  | .errorAfterStatus _ => .ERROR
  | .fetched redirectUrl status =>
    if redirectUrl ≠ [] then
      if pyLower (pyUrlparse redirectUrl).netloc ≠ cfg.allowedDomain then .REDIRECT_EXTERNAL
      else .REDIRECT
    else if status ≥ 400 then .ERROR
    else .OK

/-- The `http_status_code` the result carries at the end of the
processing: it starts at 0 (`CrawlResult` default) and is only changed
when a fetch attempt records a status, which both `fetched` and
`errorAfterStatus` outcomes have done. -/
def finalHttpStatus : UrlOutcome → Nat
  | .robotsSkipped => 0
  | .cancelledBeforeFetch => 0
  | .transportError => 0
  | .errorAfterStatus status => status
  | .fetched _ status => status

/-- The status recorded for a `CrawlEvent` (phantom results get
`MAX_DEPTH`). -/
def eventStatus (cfg : CrawlerCfg) : CrawlEvent → PageStatus
  | .processUrl o => finalStatus cfg o
  | .maxDepthPhantom => .MAX_DEPTH

/-- The `CrawlStats` updates performed by `_crawl_url` for one outcome,
exactly as in the source: robots skips bump `total_skipped`; an exhausted
retry loop bumps `total_errors` and `total_crawled` whether or not the
failing attempt had already recorded a status — no category counter is
touched on that path; completed fetches count the redirect as a 3xx or
classify `http_status_code`, then bump `total_crawled`; phantoms bump
`total_discovered`. -/
def applyEvent (st : CrawlStats) : CrawlEvent → CrawlStats
  | .processUrl .robotsSkipped => { st with total_skipped := st.total_skipped + 1 }
  | .processUrl .cancelledBeforeFetch => st
  | .processUrl .transportError =>
    { st with total_errors := st.total_errors + 1, total_crawled := st.total_crawled + 1 }
  | .processUrl (.errorAfterStatus _) =>
    { st with total_errors := st.total_errors + 1, total_crawled := st.total_crawled + 1 }
  | .processUrl (.fetched redirectUrl status) =>
    let st1 :=
      if redirectUrl ≠ [] then { st with total_3xx := st.total_3xx + 1 }
      else countHttpStatus st status
    { st1 with total_crawled := st1.total_crawled + 1 }
  | .maxDepthPhantom => { st with total_discovered := st.total_discovered + 1 }

/-- Accumulated stats after a sequence of crawl events. -/
def runStats (events : List CrawlEvent) : CrawlStats := events.foldl applyEvent {}

/-- Statuses of all results recorded by a sequence of crawl events. -/
def runStatuses (cfg : CrawlerCfg) (events : List CrawlEvent) : List PageStatus :=
  events.map (eventStatus cfg)

/-- Whether a crawl event records a result that counts as a non-HTTP
transport failure in the claim's sense: final status `ERROR` with
`http_status_code` still 0. -/
def isTransportFailure (cfg : CrawlerCfg) : CrawlEvent → Bool
  | .processUrl o => finalStatus cfg o == .ERROR && finalHttpStatus o == 0
  | .maxDepthPhantom => false

/-- Number of results that ended in a non-HTTP transport failure:
`status = ERROR` and `http_status_code` still 0.  An exhausted retry loop
whose failing attempt had already recorded a status yields an `ERROR`
result that this count does not include. -/
def transportFailures (cfg : CrawlerCfg) (events : List CrawlEvent) : Nat :=
  events.countP (isTransportFailure cfg)

/-! ## Skip extensions and the enqueue / link-processing step -/

/-- The set `SKIP_EXTENSIONS` of `services/crawler.py` (set literal order). -/
def skipExtensions : List (List Nat) :=
  [[46, 106, 112, 103],            -- .jpg
   [46, 106, 112, 101, 103],       -- .jpeg
   [46, 112, 110, 103],            -- .png
   [46, 103, 105, 102],            -- .gif
   [46, 115, 118, 103],            -- .svg
   [46, 119, 101, 98, 112],        -- .webp
   [46, 105, 99, 111],             -- .ico
   [46, 98, 109, 112],             -- .bmp
   [46, 112, 100, 102],            -- .pdf
   [46, 100, 111, 99],             -- .doc
   [46, 100, 111, 99, 120],        -- .docx
   [46, 120, 108, 115],            -- .xls
   [46, 120, 108, 115, 120],       -- .xlsx
   [46, 112, 112, 116],            -- .ppt
   [46, 112, 112, 116, 120],       -- .pptx
   [46, 122, 105, 112],            -- .zip
   [46, 114, 97, 114],             -- .rar
   [46, 103, 122],                 -- .gz
   [46, 116, 97, 114],             -- .tar
   [46, 55, 122],                  -- .7z
   [46, 109, 112, 51],             -- .mp3
   [46, 109, 112, 52],             -- .mp4
   [46, 97, 118, 105],             -- .avi
   [46, 109, 111, 118],            -- .mov
   [46, 119, 109, 118],            -- .wmv
   [46, 102, 108, 118],            -- .flv
   [46, 119, 101, 98, 109],        -- .webm
   [46, 99, 115, 115],             -- .css
   [46, 106, 115],                 -- .js
   [46, 106, 115, 111, 110],       -- .json
   [46, 120, 109, 108],            -- .xml
   [46, 119, 111, 102, 102],       -- .woff
   [46, 119, 111, 102, 102, 50],   -- .woff2
   [46, 116, 116, 102],            -- .ttf
   [46, 101, 111, 116],            -- .eot
   [46, 101, 120, 101],            -- .exe
   [46, 100, 109, 103],            -- .dmg
   [46, 97, 112, 107],             -- .apk
   [46, 109, 115, 105]]            -- .msi

/-- The extension filter of `Crawler._enqueue`: the lower-cased parsed
path ends with one of the skip extensions. -/
def hasSkipExtension (normalized : List Nat) : Bool :=
  let path := pyLower (pyUrlparse normalized).path
  skipExtensions.any (fun ext => ext.isSuffixOf path)

/-- One queue entry `(url, depth, parent)`. -/
structure QueueItem where
  url : List Nat
  depth : Nat
  parent : List Nat
deriving DecidableEq, Repr

/-- The scheduler state touched by `_enqueue` and the link loop of
`_crawl_url`: seen-set, FIFO queue, the result map (here: url with its
status), and `total_discovered`. -/
structure SchedState where
  seen : List (List Nat)
  queue : List QueueItem
  results : List (List Nat × PageStatus)
  totalDiscovered : Nat
deriving DecidableEq, Repr

/-- Model of `Crawler._enqueue`: full-normalize, drop if seen, drop if the
path has a skip extension, otherwise record as seen, append to the queue
and count as discovered. -/
def enqueue (cfg : CrawlerCfg) (st : SchedState) (url : List Nat) (depth : Nat)
    (parent : List Nat) : SchedState × Bool :=
  let normalized := fullNormalize cfg url
  if normalized ∈ st.seen then (st, false)
  else if hasSkipExtension normalized then (st, false)
  else
    ({ st with
        seen := st.seen ++ [normalized]
        queue := st.queue ++ [⟨normalized, depth, parent⟩]
        totalDiscovered := st.totalDiscovered + 1 }, true)

/-- Model of the per-link body of the loop in `_crawl_url` (lines
379–397), without the referrer tracking, which touches disjoint state:
enqueue the link when within the depth bound, otherwise record a
`MAX_DEPTH` phantom result for unseen URLs. -/
def processLink (cfg : CrawlerCfg) (maxDepth : Nat) (st : SchedState) (curUrl : List Nat)
    (curDepth : Nat) (linkUrl : List Nat) : SchedState :=
  let normalized := fullNormalize cfg linkUrl
  if curDepth + 1 ≤ maxDepth then (enqueue cfg st linkUrl (curDepth + 1) curUrl).1
  else if normalized ∉ st.seen then
    { st with
        seen := st.seen ++ [normalized]
        results := st.results ++ [(normalized, .MAX_DEPTH)]
        totalDiscovered := st.totalDiscovered + 1 }
  else st

/-! ## Referrer bookkeeping (`_track_referring_page` and the drain in
`_crawl_url`) -/

/-- One entry of `referring_pages`: the dict with keys url and link_text. -/
structure RefEntry where
  url : List Nat
  link_text : List Nat
deriving DecidableEq, Repr

/-- Association-list lookup (Python dict access by key). -/
def assocLookup (k : List Nat) : List (List Nat × α) → Option α
  | [] => none
  | (k2, v) :: rest => if k2 = k then some v else assocLookup k rest

/-- Association-list update (Python dict item assignment). -/
def assocSet (k : List Nat) (v : α) : List (List Nat × α) → List (List Nat × α)
  | [] => [(k, v)]
  | (k2, v2) :: rest => if k2 = k then (k, v) :: rest else (k2, v2) :: assocSet k v rest

/-- Association-list removal (Python `dict.pop`). -/
def assocRemove (k : List Nat) : List (List Nat × α) → List (List Nat × α)
  | [] => []
  | (k2, v2) :: rest => if k2 = k then rest else (k2, v2) :: assocRemove k rest

/-- The two maps `_track_referring_page` writes: `_results` (with the
`referring_pages` list of each result) and `_pending_referrers`. -/
structure RefState where
  results : List (List Nat × List RefEntry)
  pending : List (List Nat × List RefEntry)
deriving DecidableEq, Repr

/-- Model of `Crawler._track_referring_page`: dedup on the source URL,
cap each list at 50 entries, buffering in `_pending_referrers` when the
target has no result yet. -/
def trackReferringPage (cfg : CrawlerCfg) (st : RefState) (targetUrl sourceUrl linkText : List Nat) :
    RefState :=
  let normalized := fullNormalize cfg targetUrl
  let entry : RefEntry := ⟨sourceUrl, linkText⟩
  match assocLookup normalized st.results with
  | some referring =>
    if referring.any (fun r => r.url = sourceUrl) then st
    else if referring.length < 50 then
      { st with results := assocSet normalized (referring ++ [entry]) st.results }
    else st
  | none =>
    let pending := (assocLookup normalized st.pending).getD []
    if pending.any (fun r => r.url = sourceUrl) then
      { st with pending := assocSet normalized pending st.pending }
    else if pending.length < 50 then
      { st with pending := assocSet normalized (pending ++ [entry]) st.pending }
    else
      { st with pending := assocSet normalized pending st.pending }

/-- Model of the start of `_crawl_url` (lines 306–311): a fresh result is
stored for the dequeued URL and any pending referrers are drained into
its `referring_pages`. -/
def createResult (st : RefState) (url : List Nat) : RefState :=
  let moved := (assocLookup url st.pending).getD []
  { results := assocSet url moved st.results
    pending := if (assocLookup url st.pending).isSome then assocRemove url st.pending
               else st.pending }

/-- Model of the `MAX_DEPTH` phantom creation (lines 392–396): a result
with an empty `referring_pages` list, no drain. -/
def createMaxDepthResult (st : RefState) (url : List Nat) : RefState :=
  { st with results := assocSet url [] st.results }

/-- The referrer-related operations a crawl performs, in order. -/
inductive RefOp where
  | track (targetUrl sourceUrl linkText : List Nat)
  | create (url : List Nat)
  | createPhantom (url : List Nat)
deriving DecidableEq, Repr

def applyRefOp (cfg : CrawlerCfg) (st : RefState) : RefOp → RefState
  | .track t s l => trackReferringPage cfg st t s l
  | .create u => createResult st u
  | .createPhantom u => createMaxDepthResult st u

def runRefOps (cfg : CrawlerCfg) (ops : List RefOp) : RefState :=
  ops.foldl (applyRefOp cfg) ⟨[], []⟩

/-- The invariant claimed for `referring_pages` lists: no duplicate
source URL and at most 50 entries. -/
def RefListOk (l : List RefEntry) : Prop :=
  (l.map RefEntry.url).Nodup ∧ l.length ≤ 50

/-- Every `referring_pages` list currently stored in a result, and every
buffered pending list, satisfies `RefListOk`. -/
def RefInvariant (st : RefState) : Prop :=
  (∀ p ∈ st.results, RefListOk p.2) ∧ (∀ p ∈ st.pending, RefListOk p.2)

/-! ## robots.txt evaluation (`models/robots.py`) -/

/-- Model of `RobotsChecker.is_allowed`: the fold mirrors the loop with
its `best_match` string and `allowed` flag. -/
def robotsIsAllowed (rules : List (List Nat × Bool)) (url : List Nat) : Bool :=
  if rules = [] then true
  else
    let path := (pyUrlparse url).path
    (rules.foldl
      (fun (acc : List Nat × Bool) r =>
        if r.1.isPrefixOf path ∧ acc.1.length < r.1.length then (r.1, r.2) else acc)
      ([], true)).2

/-! ## Sitemap writer (`playwright_sitemap_generator/models/sitemap_writer.py`) -/

/-- The `PageStatus` of the playwright package (no external-redirect
variant). -/
inductive PwPageStatus where
  | PENDING
  | CRAWLING
  | OK
  | REDIRECT
  | ERROR
  | TIMEOUT
  | SKIPPED
  | MAX_DEPTH
deriving DecidableEq, Repr

/-- The fields of the playwright `CrawlResult` the writer reads. -/
structure PwCrawlResult where
  url : List Nat
  status : PwPageStatus
  content_type : List Nat
  last_modified : List Nat
  depth : Nat
deriving DecidableEq, Repr

/-- Model of `CrawlResult.is_successful` (playwright variant). -/
def pwIsSuccessful (r : PwCrawlResult) : Bool :=
  r.status = .OK || r.status = .REDIRECT

/-- Python substring containment (the `in` operator on str). -/
def isSubstringOf (sub : List Nat) : List Nat → Bool
  | [] => sub.isEmpty
  | c :: rest => sub.isPrefixOf (c :: rest) || isSubstringOf sub rest

/-- Model of `SitemapWriter._is_html`: content type contains text/html
(the codes of the string text slash html), or is empty. -/
def writerIsHtml (r : PwCrawlResult) : Bool :=
  let ct := pyLower r.content_type
  isSubstringOf [116, 101, 120, 116, 47, 104, 116, 109, 108] ct || ct.isEmpty

/-- The constant `MAX_URLS_PER_SITEMAP` of the source. -/
def maxUrlsPerSitemap : Nat := 50000

/-- A sitemap document, abstracting the XML tree the writer builds: a
`urlset` carries the results serialized into it, a `sitemapindex` carries
its loc entries. -/
inductive SitemapOut where
  | urlset (entries : List PwCrawlResult)
  | sitemapindex (locs : List (List Nat))
deriving DecidableEq, Repr

/-- Model of `os.path.basename` (posix): the part after the last slash. -/
def pyBasename (p : List Nat) : List Nat :=
  match splitOnLast 47 p with
  | some pr => pr.2
  | none => p

/-- Model of `os.path.splitext`: split off the extension at the last dot
of the basename, unless the basename consists only of leading dots up to
that position. -/
def pySplitext (p : List Nat) : List Nat × List Nat :=
  match splitOnLast 46 p with
  | none => (p, [])
  | some (pre, post) =>
    if 47 ∈ post then (p, [])
    else
      let base := pyBasename pre
      if base.all (fun c => c = 46) then (p, [])
      else (pre, 46 :: post)

/-- Decimal digits of a number, as the characters Python `str(i)` yields. -/
def natDigits (n : Nat) : List Nat := (Nat.toDigits 10 n).map Char.toNat

/-- The name of part file idx: base, hyphen, idx, ext. -/
def partFileName (base ext : List Nat) (idx : Nat) : List Nat :=
  base ++ [45] ++ natDigits idx ++ ext

/-- Chunks of at most m elements (`urls[i:i+m]` for i in range(0, len, m)). -/
def chunksOf (m : Nat) (l : List α) : List (List α) :=
  if l.isEmpty then []
  else if m = 0 then []
  else l.take m :: chunksOf m (l.drop m)
termination_by l.length
decreasing_by
  rename_i hl hm
  have hln : l.length ≠ 0 := by
    intro hz
    exact hl (by simp [List.isEmpty_iff, List.eq_nil_of_length_eq_zero hz])
  simp only [List.length_drop]
  omega

/-- Model of `SitemapWriter._write_index`: write each chunk to
base-idx ext, then the `sitemapindex` (with the basenames of the parts as
loc entries) to the original path; return the index path first. -/
def sitemapWriteIndex (urls : List PwCrawlResult) (path : List Nat) :
    List (List Nat × SitemapOut) × List (List Nat) :=
  let be := pySplitext path
  let chunks := chunksOf maxUrlsPerSitemap urls
  let writtenFiles := (List.range chunks.length).map (fun i => partFileName be.1 be.2 (i + 1))
  let parts := writtenFiles.zip (chunks.map SitemapOut.urlset)
  (parts ++ [(path, .sitemapindex (writtenFiles.map pyBasename))], path :: writtenFiles)

/-- Model of `SitemapWriter.write`: filter to successful HTML results;
write nothing for an empty set, a single `urlset` when within the limit,
and an index plus parts otherwise.  The first component lists the files
written (path and document) in write order, the second is the returned
file list. -/
def sitemapWrite (results : List PwCrawlResult) (outputPath : List Nat) :
    List (List Nat × SitemapOut) × List (List Nat) :=
  let urls := results.filter (fun r => pwIsSuccessful r && writerIsHtml r)
  if urls = [] then ([], [])
  else if urls.length ≤ maxUrlsPerSitemap then ([(outputPath, .urlset urls)], [outputPath])
  else sitemapWriteIndex urls outputPath

/-! ## Sitemap reader (`models/sitemap_reader.py`) -/

/-- The outcome of fetching and XML-parsing one sitemap document:
`parseFail` models an `ET.ParseError`; otherwise the document carries the
loc texts of its sitemap children (non-empty for an index document) and
the loc texts of its url children. -/
inductive SitemapDocBody where
  | parseFail
  | doc (subSitemaps : List (List Nat)) (urlEntries : List (List Nat))
deriving DecidableEq, Repr

/-- A fixture web for the reader: URL to HTTP status and body; a missing
entry models a transport exception during the GET. -/
def SitemapWeb : Type := List (List Nat × (Nat × SitemapDocBody))

/-- Set-insert into the accumulated URL set (Python `set.add`, with the
set modelled as a duplicate-free list in insertion order). -/
def addUrl (urls : List (List Nat)) (u : List Nat) : List (List Nat) :=
  if u ∈ urls then urls else urls ++ [u]

mutual

/-- Model of `_load_sitemap_recursive`: depth-capped at 3, aborting the
branch (returning the URLs accumulated so far) on a transport error, on
any HTTP status other than 200, and on an XML parse failure; an index
document recurses into its children, a plain document adds its url
entries. -/
def loadSitemapRec (web : SitemapWeb) (sitemapUrl : List Nat) (urls : List (List Nat))
    (depth : Nat) : List (List Nat) :=
  if depth > 3 then urls
  else
    match assocLookup sitemapUrl web with
    | none => urls
    | some (status, body) =>
      if status ≠ 200 then urls
      else
        match body with
        | .parseFail => urls
        | .doc subSitemaps urlEntries =>
          if subSitemaps ≠ [] then loadSitemapList web subSitemaps urls (depth + 1)
          else urlEntries.foldl addUrl urls
termination_by (4 - depth, 0)
decreasing_by
  simp_wf
  omega

/-- The loop over the loc entries of an index document. -/
def loadSitemapList (web : SitemapWeb) (subs : List (List Nat)) (urls : List (List Nat))
    (depth : Nat) : List (List Nat) :=
  match subs with
  | [] => urls
  | u :: rest => loadSitemapList web rest (loadSitemapRec web u urls depth) depth
termination_by (4 - depth, subs.length + 1)
decreasing_by
  · simp_wf
    omega
  · simp_wf
    omega

end

/-! ## Redirect recording in the fetchers (`_fetch_with_httpx`) -/

/-- One entry of `response.history`: a redirect response with its status
code. -/
structure HistoryEntry where
  status_code : Nat
deriving DecidableEq, Repr

/-- The httpx response fields `_fetch_with_httpx` reads after the GET
(with redirects already followed): the redirect history, the terminal
status code, the terminal URL, and the two headers it copies. -/
structure HttpxResponse where
  history : List HistoryEntry
  status_code : Nat
  url : List Nat
  content_type : List Nat
  last_modified : List Nat
deriving DecidableEq, Repr

/-- The `CrawlResult` fields `_fetch_with_httpx` assigns from the
response. -/
structure FetchRecord where
  http_status_code : Nat
  redirect_url : List Nat
  content_type : List Nat
  last_modified : List Nat
deriving DecidableEq, Repr

/-- Model of lines 435–449 of `_fetch_with_httpx`: content type and last
modified are copied; with a redirect history the recorded status is the
first history entry's code and `redirect_url` is the terminal URL, else
the terminal status is recorded and `redirect_url` keeps its initial
empty value. -/
def recordResponse (resp : HttpxResponse) : FetchRecord :=
  match resp.history with
  | h :: _ =>
    { http_status_code := h.status_code
      redirect_url := resp.url
      content_type := resp.content_type
      last_modified := resp.last_modified }
  | [] =>
    { http_status_code := resp.status_code
      redirect_url := []
      content_type := resp.content_type
      last_modified := resp.last_modified }

/-- The path component after the last slash (used to state where the
params split of `urlparse` looks for a semicolon). -/
def lastPathSegment (p : List Nat) : List Nat :=
  match splitOnLast 47 p with
  | some pr => pr.2
  | none => p

/-- All characters of a modelled Python string are Unicode scalar
values. -/
def validStr (s : List Nat) : Prop := ∀ c ∈ s, validChar c

instance (s : List Nat) : Decidable (validStr s) := by
  unfold validStr
  infer_instance

/-- The token block `pctTokenize` produces from one quoted character:
a literal for safe characters, the percent-decoded bytes otherwise. -/
def quoteToks (safe : List Nat) (c : Nat) : List QTok :=
  if quoteAlwaysSafe c || safe.contains c then [.lit c]
  else (utf8EncodeChar c).map QTok.byt

/-- A well-formed scheme string as `urlsplit` produces for a non-empty
scheme: non-empty, made of scheme characters, starting with a letter, and
already lower-case. -/
def SchemeOk (s : List Nat) : Prop :=
  s ≠ [] ∧ (∀ c ∈ s, isSchemeChar c = true) ∧
    (∀ c, s.head? = some c → isAsciiAlpha c = true) ∧ pyLower s = s

instance (s : List Nat) : Decidable (SchemeOk s) := by
  unfold SchemeOk
  infer_instance

/-! # Theorems

General lemmas about the string helpers come first, then the theorems
settling the individual claims. -/

/-! ## Splitting lemmas -/

theorem splitOnFirst_eq_none_iff (d : Nat) : ∀ (s : List Nat),
    splitOnFirst d s = none ↔ d ∉ s
  | [] => by simp [splitOnFirst]
  | c :: rest => by
    by_cases hc : c = d
    · subst hc
      simp [splitOnFirst]
    · simp only [splitOnFirst, if_neg hc, List.mem_cons, not_or]
      cases hr : splitOnFirst d rest with
      | none =>
        simp only [Option.map]
        have := (splitOnFirst_eq_none_iff d rest).mp hr
        constructor
        · intro _
          exact ⟨fun he => hc he.symm, this⟩
        · intro _
          trivial
      | some p =>
        simp only [Option.map]
        constructor
        · intro h
          exact Option.noConfusion h
        · rintro ⟨h1, h2⟩
          have := (splitOnFirst_eq_none_iff d rest).mpr h2
          rw [hr] at this
          exact Option.noConfusion this

theorem splitOnFirst_sound (d : Nat) : ∀ (s a b : List Nat),
    splitOnFirst d s = some (a, b) → s = a ++ d :: b ∧ d ∉ a
  | [], a, b => by simp [splitOnFirst]
  | c :: rest, a, b => by
    intro h
    by_cases hc : c = d
    · subst hc
      simp only [splitOnFirst, if_pos rfl, Option.some.injEq, Prod.mk.injEq] at h
      obtain ⟨rfl, rfl⟩ := h
      simp
    · simp only [splitOnFirst, if_neg hc] at h
      cases hr : splitOnFirst d rest with
      | none =>
        rw [hr] at h
        exact Option.noConfusion h
      | some p =>
        rw [hr] at h
        simp only [Option.map, Option.some.injEq] at h
        obtain ⟨hp1, hp2⟩ := splitOnFirst_sound d rest p.1 p.2 (by rw [hr])
        have h1 : c :: p.1 = a := congrArg Prod.fst h
        have h2 : p.2 = b := congrArg Prod.snd h
        subst h1
        subst h2
        refine ⟨by simp [hp1], ?_⟩
        simp only [List.mem_cons, not_or]
        exact ⟨fun he => hc he.symm, hp2⟩

theorem splitOnFirst_append (d : Nat) : ∀ (a b : List Nat), d ∉ a →
    splitOnFirst d (a ++ d :: b) = some (a, b)
  | [], b => by simp [splitOnFirst]
  | c :: rest, b => by
    intro ha
    have hc : c ≠ d := fun h => ha (by simp [h])
    have hr : d ∉ rest := fun h => ha (by simp [h])
    show splitOnFirst d (c :: (rest ++ d :: b)) = _
    simp only [splitOnFirst, if_neg hc, splitOnFirst_append d rest b hr, Option.map]

theorem splitOnLast_eq_none_iff (d : Nat) (s : List Nat) :
    splitOnLast d s = none ↔ d ∉ s := by
  unfold splitOnLast
  cases h : splitOnFirst d s.reverse with
  | none =>
    rw [splitOnFirst_eq_none_iff] at h
    simp only [List.mem_reverse] at h
    simp [h]
  | some p =>
    have : d ∈ s.reverse := by
      by_contra hmem
      rw [← splitOnFirst_eq_none_iff] at hmem
      rw [h] at hmem
      exact Option.noConfusion hmem
    simp only [List.mem_reverse] at this
    simp [this]

theorem splitOnLast_sound (d : Nat) (s a b : List Nat)
    (h : splitOnLast d s = some (a, b)) : s = a ++ d :: b ∧ d ∉ b := by
  unfold splitOnLast at h
  cases hf : splitOnFirst d s.reverse with
  | none =>
    rw [hf] at h
    exact Option.noConfusion h
  | some p =>
    rw [hf] at h
    simp only [Option.some.injEq, Prod.mk.injEq] at h
    obtain ⟨h1, h2⟩ := splitOnFirst_sound d s.reverse p.1 p.2 (by rw [hf])
    obtain ⟨ha, hb⟩ := h
    subst ha
    subst hb
    constructor
    · have := congrArg List.reverse h1
      simpa [List.reverse_append] using this
    · simpa using h2

theorem splitOnLast_append (d : Nat) (a b : List Nat) (hb : d ∉ b) :
    splitOnLast d (a ++ d :: b) = some (a, b) := by
  unfold splitOnLast
  have hrev : (a ++ d :: b).reverse = b.reverse ++ d :: a.reverse := by
    simp [List.reverse_append]
  rw [hrev, splitOnFirst_append d _ _ (by simpa using hb)]
  simp

/-! ## UTF-8 decoding lemmas -/

theorem utf8Step_length (b1 : Nat) (rest : List Nat) :
    (utf8Step b1 rest).2.length ≤ rest.length := by
  unfold utf8Step
  repeat' split
  all_goals simp_all
  all_goals omega

theorem utf8DecodeAux_congr : ∀ (n : Nat) (bs : List Nat) (f g : Nat), bs.length ≤ n →
    bs.length ≤ f → bs.length ≤ g → utf8DecodeAux f bs = utf8DecodeAux g bs := by
  intro n
  induction n with
  | zero =>
    intro bs f g hn _ _
    have : bs = [] := List.eq_nil_of_length_eq_zero (Nat.le_zero.mp hn)
    subst this
    cases f <;> cases g <;> rfl
  | succ n ih =>
    intro bs f g hn hf hg
    match bs, f, g with
    | [], 0, 0 => rfl
    | [], 0, _ + 1 => rfl
    | [], _ + 1, 0 => rfl
    | [], _ + 1, _ + 1 => rfl
    | b1 :: rest, f + 1, g + 1 =>
      simp only [utf8DecodeAux]
      have hlen := utf8Step_length b1 rest
      simp only [List.length_cons] at hn hf hg
      rw [ih (utf8Step b1 rest).2 f g (by omega) (by omega) (by omega)]

theorem utf8DecodeReplace_cons (b1 : Nat) (rest : List Nat) :
    utf8DecodeReplace (b1 :: rest) =
      (utf8Step b1 rest).1 :: utf8DecodeReplace (utf8Step b1 rest).2 := by
  unfold utf8DecodeReplace
  simp only [List.length_cons, utf8DecodeAux]
  rw [utf8DecodeAux_congr rest.length (utf8Step b1 rest).2 rest.length
    (utf8Step b1 rest).2.length (utf8Step_length b1 rest) (utf8Step_length b1 rest) (le_refl _)]

theorem utf8Step_ascii (b1 : Nat) (rest : List Nat) (h : b1 < 128) :
    utf8Step b1 rest = (b1, rest) := by
  unfold utf8Step
  rw [if_pos h]

theorem utf8Step_two (b1 b2 : Nat) (rest : List Nat) (h1 : 194 ≤ b1) (h2 : b1 ≤ 223)
    (h3 : 128 ≤ b2) (h4 : b2 ≤ 191) :
    utf8Step b1 (b2 :: rest) = ((b1 - 192) * 64 + (b2 - 128), rest) := by
  have hc : isCont b2 = true := by
    simp only [isCont, Bool.and_eq_true, decide_eq_true_eq]
    omega
  unfold utf8Step
  rw [if_neg (by omega)]
  rw [if_pos (by simp only [Bool.and_eq_true, decide_eq_true_eq]; omega)]
  dsimp only
  rw [if_pos hc]

theorem utf8Step_three (b1 b2 b3 : Nat) (rest : List Nat) (h1 : 224 ≤ b1) (h2 : b1 ≤ 239)
    (h3 : cont2ok b1 b2 = true) (h4 : 128 ≤ b3) (h5 : b3 ≤ 191) :
    utf8Step b1 (b2 :: b3 :: rest) =
      ((b1 - 224) * 4096 + (b2 - 128) * 64 + (b3 - 128), rest) := by
  have hc : (cont2ok b1 b2 && isCont b3) = true := by
    rw [h3]
    simp only [isCont, Bool.true_and, Bool.and_eq_true, decide_eq_true_eq]
    omega
  unfold utf8Step
  rw [if_neg (by omega)]
  rw [if_neg (by simp only [Bool.and_eq_true, decide_eq_true_eq]; omega)]
  rw [if_pos (by simp only [Bool.and_eq_true, decide_eq_true_eq]; omega)]
  dsimp only
  rw [if_pos hc]

theorem utf8Step_four (b1 b2 b3 b4 : Nat) (rest : List Nat) (h1 : 240 ≤ b1) (h2 : b1 ≤ 244)
    (h3 : cont4ok b1 b2 = true) (h4 : 128 ≤ b3) (h5 : b3 ≤ 191) (h6 : 128 ≤ b4)
    (h7 : b4 ≤ 191) :
    utf8Step b1 (b2 :: b3 :: b4 :: rest) =
      ((b1 - 240) * 262144 + (b2 - 128) * 4096 + (b3 - 128) * 64 + (b4 - 128), rest) := by
  have hc : (cont4ok b1 b2 && isCont b3 && isCont b4) = true := by
    rw [h3]
    simp only [isCont, Bool.true_and, Bool.and_eq_true, decide_eq_true_eq]
    omega
  unfold utf8Step
  rw [if_neg (by omega)]
  rw [if_neg (by simp only [Bool.and_eq_true, decide_eq_true_eq]; omega)]
  rw [if_neg (by simp only [Bool.and_eq_true, decide_eq_true_eq]; omega)]
  rw [if_pos (by simp only [Bool.and_eq_true, decide_eq_true_eq]; omega)]
  dsimp only
  rw [if_pos hc]

theorem utf8DecodeReplace_encode (c : Nat) (hc : validChar c) (bs : List Nat) :
    utf8DecodeReplace (utf8EncodeChar c ++ bs) = c :: utf8DecodeReplace bs := by
  obtain ⟨hlt, hsur⟩ := hc
  by_cases h1 : c < 128
  · simp only [utf8EncodeChar, if_pos h1, List.cons_append, List.nil_append]
    rw [utf8DecodeReplace_cons, utf8Step_ascii _ _ h1]
  · by_cases h2 : c < 2048
    · simp only [utf8EncodeChar, if_neg h1, if_pos h2, List.cons_append, List.nil_append]
      rw [utf8DecodeReplace_cons,
        utf8Step_two _ _ _ (by omega) (by omega) (by omega) (by omega)]
      congr 1
      omega
    · by_cases h3 : c < 65536
      · simp only [utf8EncodeChar, if_neg h1, if_neg h2, if_pos h3, List.cons_append,
          List.nil_append]
        have hcont : cont2ok (224 + c / 4096) (128 + c / 64 % 64) = true := by
          unfold cont2ok
          by_cases he : 224 + c / 4096 = 224
          · rw [if_pos he]
            simp only [Bool.and_eq_true, decide_eq_true_eq]
            omega
          · rw [if_neg he]
            by_cases hd : 224 + c / 4096 = 237
            · rw [if_pos hd]
              simp only [Bool.and_eq_true, decide_eq_true_eq]
              omega
            · rw [if_neg hd]
              simp only [isCont, Bool.and_eq_true, decide_eq_true_eq]
              omega
        rw [utf8DecodeReplace_cons,
          utf8Step_three _ _ _ _ (by omega) (by omega) hcont (by omega) (by omega)]
        congr 1
        omega
      · simp only [utf8EncodeChar, if_neg h1, if_neg h2, if_neg h3, List.cons_append,
          List.nil_append]
        have hcont : cont4ok (240 + c / 262144) (128 + c / 4096 % 64) = true := by
          unfold cont4ok
          by_cases he : 240 + c / 262144 = 240
          · rw [if_pos he]
            simp only [Bool.and_eq_true, decide_eq_true_eq]
            omega
          · rw [if_neg he]
            by_cases hd : 240 + c / 262144 = 244
            · rw [if_pos hd]
              simp only [Bool.and_eq_true, decide_eq_true_eq]
              omega
            · rw [if_neg hd]
              simp only [isCont, Bool.and_eq_true, decide_eq_true_eq]
              omega
        rw [utf8DecodeReplace_cons,
          utf8Step_four _ _ _ _ _ (by omega) (by omega) hcont (by omega) (by omega) (by omega)
            (by omega)]
        congr 1
        omega

theorem cont2ok_bounds (b1 b2 : Nat) (h : cont2ok b1 b2 = true) :
    128 ≤ b2 ∧ b2 ≤ 191 ∧ (b1 = 224 → 160 ≤ b2) ∧ (b1 = 237 → b2 ≤ 159) := by
  unfold cont2ok isCont at h
  by_cases he : b1 = 224
  · rw [if_pos he] at h
    simp only [Bool.and_eq_true, decide_eq_true_eq] at h
    exact ⟨by omega, by omega, fun _ => by omega, fun hd => by omega⟩
  · rw [if_neg he] at h
    by_cases hd : b1 = 237
    · rw [if_pos hd] at h
      simp only [Bool.and_eq_true, decide_eq_true_eq] at h
      exact ⟨by omega, by omega, fun hc => absurd hc he, fun _ => by omega⟩
    · rw [if_neg hd] at h
      simp only [Bool.and_eq_true, decide_eq_true_eq] at h
      exact ⟨by omega, by omega, fun hc => absurd hc he, fun hc => absurd hc hd⟩

theorem cont4ok_bounds (b1 b2 : Nat) (h : cont4ok b1 b2 = true) :
    128 ≤ b2 ∧ b2 ≤ 191 ∧ (b1 = 240 → 144 ≤ b2) ∧ (b1 = 244 → b2 ≤ 143) := by
  unfold cont4ok isCont at h
  by_cases he : b1 = 240
  · rw [if_pos he] at h
    simp only [Bool.and_eq_true, decide_eq_true_eq] at h
    exact ⟨by omega, by omega, fun _ => by omega, fun hd => by omega⟩
  · rw [if_neg he] at h
    by_cases hd : b1 = 244
    · rw [if_pos hd] at h
      simp only [Bool.and_eq_true, decide_eq_true_eq] at h
      exact ⟨by omega, by omega, fun hc => absurd hc he, fun _ => by omega⟩
    · rw [if_neg hd] at h
      simp only [Bool.and_eq_true, decide_eq_true_eq] at h
      exact ⟨by omega, by omega, fun hc => absurd hc he, fun hc => absurd hc hd⟩

theorem utf8Step_fst_valid (b1 : Nat) (rest : List Nat) : validChar (utf8Step b1 rest).1 := by
  unfold utf8Step validChar
  by_cases h1 : b1 < 128
  · rw [if_pos h1]
    exact ⟨by omega, by omega⟩
  rw [if_neg h1]
  by_cases h2 : (194 ≤ b1 && b1 ≤ 223) = true
  · rw [if_pos h2]
    simp only [Bool.and_eq_true, decide_eq_true_eq] at h2
    match rest with
    | [] =>
      dsimp only
      exact ⟨by omega, by omega⟩
    | b2 :: rest2 =>
      dsimp only
      by_cases hc : isCont b2 = true
      · rw [if_pos hc]
        simp only [isCont, Bool.and_eq_true, decide_eq_true_eq] at hc
        exact ⟨by omega, by omega⟩
      · rw [if_neg hc]
        exact ⟨by omega, by omega⟩
  rw [if_neg h2]
  simp only [Bool.and_eq_true, decide_eq_true_eq, not_and, not_le] at h2
  by_cases h3 : (224 ≤ b1 && b1 ≤ 239) = true
  · rw [if_pos h3]
    simp only [Bool.and_eq_true, decide_eq_true_eq] at h3
    match rest with
    | [] =>
      dsimp only
      exact ⟨by omega, by omega⟩
    | [b2] =>
      dsimp only
      exact ⟨by omega, by omega⟩
    | b2 :: b3 :: rest3 =>
      dsimp only
      by_cases hc : (cont2ok b1 b2 && isCont b3) = true
      · rw [if_pos hc]
        simp only [Bool.and_eq_true] at hc
        obtain ⟨hc2, hc3⟩ := hc
        obtain ⟨hb2a, hb2b, hb2c, hb2d⟩ := cont2ok_bounds b1 b2 hc2
        simp only [isCont, Bool.and_eq_true, decide_eq_true_eq] at hc3
        exact ⟨by omega, by omega⟩
      · rw [if_neg hc]
        exact ⟨by omega, by omega⟩
  rw [if_neg h3]
  simp only [Bool.and_eq_true, decide_eq_true_eq, not_and, not_le] at h3
  by_cases h4 : (240 ≤ b1 && b1 ≤ 244) = true
  · rw [if_pos h4]
    simp only [Bool.and_eq_true, decide_eq_true_eq] at h4
    match rest with
    | [] =>
      dsimp only
      exact ⟨by omega, by omega⟩
    | [b2] =>
      dsimp only
      exact ⟨by omega, by omega⟩
    | [b2, b3] =>
      dsimp only
      exact ⟨by omega, by omega⟩
    | b2 :: b3 :: b4 :: rest4 =>
      dsimp only
      by_cases hc : (cont4ok b1 b2 && isCont b3 && isCont b4) = true
      · rw [if_pos hc]
        simp only [Bool.and_eq_true] at hc
        obtain ⟨⟨hc2, hc3⟩, hc4⟩ := hc
        obtain ⟨hb2a, hb2b, hb2c, hb2d⟩ := cont4ok_bounds b1 b2 hc2
        simp only [isCont, Bool.and_eq_true, decide_eq_true_eq] at hc3 hc4
        exact ⟨by omega, by omega⟩
      · rw [if_neg hc]
        exact ⟨by omega, by omega⟩
  rw [if_neg h4]
  exact ⟨by omega, by omega⟩

theorem utf8DecodeReplace_valid : ∀ (n : Nat) (bs : List Nat), bs.length ≤ n →
    ∀ c ∈ utf8DecodeReplace bs, validChar c := by
  intro n
  induction n with
  | zero =>
    intro bs hn c hc
    have : bs = [] := List.eq_nil_of_length_eq_zero (Nat.le_zero.mp hn)
    subst this
    simp [utf8DecodeReplace, utf8DecodeAux] at hc
  | succ n ih =>
    intro bs hn c hc
    match bs with
    | [] => simp [utf8DecodeReplace, utf8DecodeAux] at hc
    | b1 :: rest =>
      rw [utf8DecodeReplace_cons] at hc
      rcases List.mem_cons.mp hc with h | h
      · subst h
        exact utf8Step_fst_valid b1 rest
      · have hlen := utf8Step_length b1 rest
        simp only [List.length_cons] at hn
        exact ih (utf8Step b1 rest).2 (by omega) c h

theorem utf8DecodeReplace_ne_nil (bs : List Nat) (h : bs ≠ []) : utf8DecodeReplace bs ≠ [] := by
  match bs with
  | [] => exact absurd rfl h
  | b1 :: rest =>
    rw [utf8DecodeReplace_cons]
    simp

/-! ## Quote / unquote lemmas -/

theorem pctTokenize_cons_ne (c : Nat) (hc : c ≠ 37) : ∀ (L : List Nat),
    pctTokenize (c :: L) = .lit c :: pctTokenize L := by
  intro L
  rw [pctTokenize.eq_def]
  split
  · rename_i heq
    simp at heq
  · rename_i heq
    have := congrArg List.head? heq
    simp at this
    exact absurd this hc
  · rename_i cc c2 _ heq
    have h1 : c = cc := by
      have := congrArg List.head? heq
      simpa using this
    have h2 : L = c2 := by
      have := congrArg List.tail heq
      simpa using this
    rw [← h1, ← h2]

theorem hexDigitVal_hexUpper (n : Nat) (h : n < 16) :
    hexDigitVal (hexUpperDigit n) = some n := by
  unfold hexDigitVal hexUpperDigit
  by_cases h10 : n < 10
  · rw [if_pos h10]
    rw [if_pos (by simp only [Bool.and_eq_true, decide_eq_true_eq]; omega)]
    congr 1
    omega
  · rw [if_neg h10]
    rw [if_neg (by simp only [Bool.and_eq_true, decide_eq_true_eq]; omega)]
    rw [if_pos (by simp only [Bool.and_eq_true, decide_eq_true_eq]; omega)]
    congr 1
    omega

theorem pctTokenize_triple (b : Nat) (hb : b < 256) (L : List Nat) :
    pctTokenize (pctEncodeByte b ++ L) = .byt b :: pctTokenize L := by
  have e1 : hexDigitVal (hexUpperDigit (b / 16)) = some (b / 16) :=
    hexDigitVal_hexUpper _ (by omega)
  have e2 : hexDigitVal (hexUpperDigit (b % 16)) = some (b % 16) :=
    hexDigitVal_hexUpper _ (by omega)
  show pctTokenize (37 :: hexUpperDigit (b / 16) :: hexUpperDigit (b % 16) :: L) = _
  rw [pctTokenize.eq_def]
  split
  · rename_i heq
    simp at heq
  · rename_i h1 h2 rest heq
    have hh : hexUpperDigit (b / 16) = h1 ∧ hexUpperDigit (b % 16) = h2 ∧ L = rest := by
      have := heq
      simp only [List.cons.injEq] at this
      exact ⟨this.2.1, this.2.2.1, this.2.2.2⟩
    obtain ⟨hh1, hh2, hh3⟩ := hh
    rw [← hh1, ← hh2, ← hh3, e1, e2]
    dsimp only
    congr 2
    omega
  · rename_i cc c2 hno heq
    exfalso
    simp only [List.cons.injEq] at heq
    exact hno (hexUpperDigit (b / 16)) (hexUpperDigit (b % 16)) L heq.1.symm heq.2.symm

theorem utf8EncodeChar_bytes_lt (c : Nat) (hc : validChar c) :
    ∀ b ∈ utf8EncodeChar c, b < 256 := by
  obtain ⟨hlt, _⟩ := hc
  unfold utf8EncodeChar
  intro b hb
  by_cases h1 : c < 128
  · rw [if_pos h1] at hb
    simp at hb
    omega
  · rw [if_neg h1] at hb
    by_cases h2 : c < 2048
    · rw [if_pos h2] at hb
      simp at hb
      rcases hb with h | h <;> omega
    · rw [if_neg h2] at hb
      by_cases h3 : c < 65536
      · rw [if_pos h3] at hb
        simp at hb
        rcases hb with h | h | h <;> omega
      · rw [if_neg h3] at hb
        simp at hb
        rcases hb with h | h | h | h <;> omega

theorem pctTokenize_bytes : ∀ (bs : List Nat), (∀ b ∈ bs, b < 256) → ∀ (L : List Nat),
    pctTokenize (bs.flatMap pctEncodeByte ++ L) = bs.map QTok.byt ++ pctTokenize L := by
  intro bs
  induction bs with
  | nil => intro _ L; simp
  | cons b rest ih =>
    intro hb L
    have hb1 : b < 256 := hb b (by simp)
    simp only [List.flatMap_cons, List.map_cons, List.append_assoc, List.cons_append]
    rw [pctTokenize_triple b hb1, ih (fun x hx => hb x (by simp [hx]))]

theorem quoteToks_safe (safe : List Nat) (c : Nat)
    (h : (quoteAlwaysSafe c || safe.contains c) = true) : quoteToks safe c = [.lit c] := by
  unfold quoteToks
  rw [if_pos h]

theorem quoteToks_encoded (safe : List Nat) (c : Nat)
    (h : ¬(quoteAlwaysSafe c || safe.contains c) = true) :
    quoteToks safe c = (utf8EncodeChar c).map QTok.byt := by
  unfold quoteToks
  rw [if_neg h]

theorem pyQuoteChar_safe (safe : List Nat) (c : Nat)
    (h : (quoteAlwaysSafe c || safe.contains c) = true) : pyQuoteChar safe c = [c] := by
  unfold pyQuoteChar
  rw [if_pos h]

theorem pyQuoteChar_encoded (safe : List Nat) (c : Nat)
    (h : ¬(quoteAlwaysSafe c || safe.contains c) = true) :
    pyQuoteChar safe c = (utf8EncodeChar c).flatMap pctEncodeByte := by
  unfold pyQuoteChar
  rw [if_neg h]

theorem pctTokenize_quote (safe : List Nat) (hsafe : (37 : Nat) ∉ safe) :
    ∀ (s : List Nat), validStr s →
      pctTokenize (pyQuote safe s) = s.flatMap (quoteToks safe) := by
  intro s
  induction s with
  | nil => intro _; rfl
  | cons c rest ih =>
    intro hv
    have hvc : validChar c := hv c (by simp)
    have hvr : validStr rest := fun x hx => hv x (by simp [hx])
    show pctTokenize (pyQuoteChar safe c ++ pyQuote safe rest) = _
    simp only [List.flatMap_cons]
    by_cases h : (quoteAlwaysSafe c || safe.contains c) = true
    · rw [pyQuoteChar_safe safe c h, quoteToks_safe safe c h]
      have hc37 : c ≠ 37 := by
        intro he
        subst he
        rcases Bool.or_eq_true .. ▸ h with h1 | h1
        · exact absurd h1 (by decide)
        · exact hsafe (by simpa using h1)
      simp only [List.cons_append, List.nil_append]
      rw [pctTokenize_cons_ne c hc37, ih hvr]
    · rw [pyQuoteChar_encoded safe c h, quoteToks_encoded safe c h]
      rw [pctTokenize_bytes (utf8EncodeChar c) (utf8EncodeChar_bytes_lt c hvc) (pyQuote safe rest),
        ih hvr]

theorem utf8DecodeReplace_flatEnc : ∀ (cs : List Nat), validStr cs →
    utf8DecodeReplace (cs.flatMap utf8EncodeChar) = cs := by
  intro cs
  induction cs with
  | nil => intro _; rfl
  | cons c rest ih =>
    intro hv
    simp only [List.flatMap_cons]
    rw [utf8DecodeReplace_encode c (hv c (by simp)), ih (fun x hx => hv x (by simp [hx]))]

theorem decodeLoop_bytes : ∀ (bs : List Nat) (acc : List Nat) (toks : List QTok),
    decodeLoop acc (bs.map QTok.byt ++ toks) = decodeLoop (acc ++ bs) toks := by
  intro bs
  induction bs with
  | nil => intro acc toks; simp
  | cons b rest ih =>
    intro acc toks
    simp only [List.map_cons, List.cons_append, decodeLoop, List.append_eq]
    rw [ih (acc ++ [b]) toks]
    simp

theorem decodeLoop_quote_aux (safe : List Nat) : ∀ (s : List Nat), validStr s →
    ∀ (cs : List Nat), validStr cs →
      decodeLoop (cs.flatMap utf8EncodeChar) (s.flatMap (quoteToks safe)) =
        cs ++ decodeLoop [] (s.flatMap (quoteToks safe)) := by
  intro s
  induction s with
  | nil =>
    intro _ cs hcs
    simp only [List.flatMap_nil, decodeLoop]
    rw [utf8DecodeReplace_flatEnc cs hcs]
    simp [utf8DecodeReplace, utf8DecodeAux]
  | cons c rest ih =>
    intro hv cs hcs
    have hvc : validChar c := hv c (by simp)
    have hvr : validStr rest := fun x hx => hv x (by simp [hx])
    simp only [List.flatMap_cons]
    by_cases h : (quoteAlwaysSafe c || safe.contains c) = true
    · rw [quoteToks_safe safe c h]
      simp only [List.cons_append, List.nil_append, decodeLoop]
      rw [utf8DecodeReplace_flatEnc cs hcs]
      simp [utf8DecodeReplace, utf8DecodeAux]
    · rw [quoteToks_encoded safe c h]
      rw [decodeLoop_bytes, decodeLoop_bytes]
      have hcs1 : validStr (cs ++ [c]) := by
        intro x hx
        rcases List.mem_append.mp hx with h1 | h1
        · exact hcs x h1
        · simp at h1
          subst h1
          exact hvc
      have hc1 : validStr [c] := by
        intro x hx
        simp at hx
        subst hx
        exact hvc
      have hflat : cs.flatMap utf8EncodeChar ++ utf8EncodeChar c =
          (cs ++ [c]).flatMap utf8EncodeChar := by
        simp
      have hnil : (([] : List Nat) ++ utf8EncodeChar c) = ([c] : List Nat).flatMap utf8EncodeChar := by
        simp
      rw [hflat, hnil, ih hvr (cs ++ [c]) hcs1, ih hvr [c] hc1]
      simp

theorem decodeLoop_quoteToks (safe : List Nat) : ∀ (s : List Nat), validStr s →
    decodeLoop [] (s.flatMap (quoteToks safe)) = s := by
  intro s
  induction s with
  | nil => intro _; rfl
  | cons c rest ih =>
    intro hs
    have hvc : validChar c := hs c (by simp)
    have hvr : validStr rest := fun x hx => hs x (by simp [hx])
    simp only [List.flatMap_cons]
    by_cases h : (quoteAlwaysSafe c || safe.contains c) = true
    · rw [quoteToks_safe safe c h]
      simp only [List.cons_append, List.nil_append, decodeLoop, List.append_eq]
      rw [ih hvr]
      simp [utf8DecodeReplace, utf8DecodeAux]
    · rw [quoteToks_encoded safe c h]
      rw [decodeLoop_bytes]
      have hnil : (([] : List Nat) ++ utf8EncodeChar c) = ([c] : List Nat).flatMap utf8EncodeChar := by
        simp
      rw [hnil, decodeLoop_quote_aux safe rest hvr [c] (by
        intro x hx
        simp at hx
        subst hx
        exact hvc)]
      rw [ih hvr]
      simp

theorem pyUnquote_pyQuote (safe : List Nat) (hsafe : (37 : Nat) ∉ safe) (s : List Nat)
    (hs : validStr s) : pyUnquote (pyQuote safe s) = s := by
  unfold pyUnquote
  rw [pctTokenize_quote safe hsafe s hs, decodeLoop_quoteToks safe s hs]

theorem utf8EncodeChar_ne_nil (c : Nat) : utf8EncodeChar c ≠ [] := by
  unfold utf8EncodeChar
  repeat' split
  all_goals simp

theorem hexUpperDigit_range (n : Nat) (h : n < 16) :
    (48 ≤ hexUpperDigit n ∧ hexUpperDigit n ≤ 57) ∨
      (65 ≤ hexUpperDigit n ∧ hexUpperDigit n ≤ 70) := by
  unfold hexUpperDigit
  by_cases h10 : n < 10
  · rw [if_pos h10]
    left
    omega
  · rw [if_neg h10]
    right
    omega

/-- Characters appearing in `pyQuote` output over valid input: safe-set
members, always-safe characters, the percent sign, or hex digits. -/
theorem pyQuote_mem (safe : List Nat) : ∀ (s : List Nat), validStr s →
    ∀ x ∈ pyQuote safe s,
      x ∈ safe ∨ quoteAlwaysSafe x = true ∨ x = 37 ∨
        (48 ≤ x ∧ x ≤ 57) ∨ (65 ≤ x ∧ x ≤ 70) := by
  intro s
  induction s with
  | nil => intro _ x hx; simp [pyQuote] at hx
  | cons c rest ih =>
    intro hv x hx
    have hvc : validChar c := hv c (by simp)
    have hvr : validStr rest := fun y hy => hv y (by simp [hy])
    have hsplit : x ∈ pyQuoteChar safe c ∨ x ∈ pyQuote safe rest := by
      simpa [pyQuote, List.mem_append] using hx
    rcases hsplit with h1 | h1
    · by_cases h : (quoteAlwaysSafe c || safe.contains c) = true
      · rw [pyQuoteChar_safe safe c h] at h1
        simp at h1
        subst h1
        rcases Bool.or_eq_true .. ▸ h with h2 | h2
        · right
          left
          exact h2
        · left
          simpa using h2
      · rw [pyQuoteChar_encoded safe c h] at h1
        simp only [List.mem_flatMap] at h1
        obtain ⟨b, hb, hxb⟩ := h1
        have hb256 : b < 256 := utf8EncodeChar_bytes_lt c hvc b hb
        simp only [pctEncodeByte, List.mem_cons, List.mem_singleton] at hxb
        rcases hxb with h2 | h2 | h2
        · right; right; left; exact h2
        · subst h2
          rcases hexUpperDigit_range (b / 16) (by omega) with h3 | h3
          · right; right; right; left; exact h3
          · right; right; right; right; exact h3
        · simp at h2
          subst h2
          rcases hexUpperDigit_range (b % 16) (by omega) with h3 | h3
          · right; right; right; left; exact h3
          · right; right; right; right; exact h3
    · exact ih hvr x h1

/-- A character that is not in the safe set, not always safe, not the
percent sign and not a hex digit never appears in `pyQuote` output. -/
theorem pyQuote_not_mem (safe : List Nat) (s : List Nat) (hs : validStr s) (bad : Nat)
    (h1 : bad ∉ safe) (h2 : quoteAlwaysSafe bad = false) (h3 : bad ≠ 37)
    (h4 : ¬(48 ≤ bad ∧ bad ≤ 57)) (h5 : ¬(65 ≤ bad ∧ bad ≤ 70)) :
    bad ∉ pyQuote safe s := by
  intro hmem
  rcases pyQuote_mem safe s hs bad hmem with h | h | h | h | h
  · exact h1 h
  · rw [h2] at h
    exact Bool.noConfusion h
  · exact h3 h
  · exact h4 h
  · exact h5 h

theorem pyQuote_eq_nil_iff (safe : List Nat) (s : List Nat) :
    pyQuote safe s = [] ↔ s = [] := by
  constructor
  · intro h
    match s with
    | [] => rfl
    | c :: rest =>
      exfalso
      have : pyQuoteChar safe c ++ pyQuote safe rest = [] := h
      have hne : pyQuoteChar safe c ≠ [] := by
        unfold pyQuoteChar
        split
        · simp
        · simp only [ne_eq, List.flatMap_eq_nil_iff]
          intro hall
          have := hall _ (List.head_mem (utf8EncodeChar_ne_nil c))
          simp [pctEncodeByte] at this
      rcases List.append_eq_nil.mp this with ⟨ha, _⟩
      exact hne ha
  · intro h
    subst h
    rfl

theorem pctTokenize_ne_nil (s : List Nat) (h : s ≠ []) : pctTokenize s ≠ [] := by
  match s with
  | [] => exact absurd rfl h
  | c :: rest =>
    rw [pctTokenize.eq_def]
    split
    · rename_i heq
      simp at heq
    · split <;> simp
    · simp

theorem decodeLoop_acc_ne_nil : ∀ (toks : List QTok) (acc : List Nat), acc ≠ [] →
    decodeLoop acc toks ≠ [] := by
  intro toks
  induction toks with
  | nil =>
    intro acc hacc
    exact utf8DecodeReplace_ne_nil acc hacc
  | cons t rest ih =>
    intro acc hacc
    match t with
    | .byt b => exact ih (acc ++ [b]) (by simp)
    | .lit c =>
      show utf8DecodeReplace acc ++ c :: decodeLoop [] rest ≠ []
      simp

theorem pyUnquote_eq_nil_iff (s : List Nat) : pyUnquote s = [] ↔ s = [] := by
  constructor
  · intro h
    by_contra hs
    have htok := pctTokenize_ne_nil s hs
    unfold pyUnquote at h
    match htoks : pctTokenize s with
    | [] => exact htok htoks
    | .byt b :: rest =>
      rw [htoks] at h
      exact decodeLoop_acc_ne_nil rest [b] (by simp) h
    | .lit c :: rest =>
      rw [htoks] at h
      simp [decodeLoop] at h
  · intro h
    subst h
    rfl

theorem pyUnquote_cons_lit (c : Nat) (hc : c ≠ 37) (L : List Nat) :
    pyUnquote (c :: L) = c :: pyUnquote L := by
  unfold pyUnquote
  rw [pctTokenize_cons_ne c hc]
  show utf8DecodeReplace [] ++ c :: decodeLoop [] (pctTokenize L) = _
  simp [utf8DecodeReplace, utf8DecodeAux]

theorem pyQuote_cons_safe (safe : List Nat) (c : Nat)
    (h : (quoteAlwaysSafe c || safe.contains c) = true) (s : List Nat) :
    pyQuote safe (c :: s) = c :: pyQuote safe s := by
  show pyQuoteChar safe c ++ pyQuote safe s = _
  rw [pyQuoteChar_safe safe c h]
  rfl

theorem pctTokenize_lit_mem : ∀ (n : Nat) (s : List Nat), s.length ≤ n →
    ∀ x, QTok.lit x ∈ pctTokenize s → x ∈ s := by
  intro n
  induction n with
  | zero =>
    intro s hs x hx
    have : s = [] := List.eq_nil_of_length_eq_zero (Nat.le_zero.mp hs)
    subst this
    simp [pctTokenize] at hx
  | succ n ih =>
    intro s hs x hx
    match s with
    | [] => simp [pctTokenize] at hx
    | c :: rest =>
      rw [pctTokenize.eq_def] at hx
      split at hx
      · rename_i heq
        simp at heq
      · rename_i h1 h2 r2 heq
        obtain ⟨e0, e3⟩ : c = 37 ∧ rest = h1 :: h2 :: r2 := by
          simp only [List.cons.injEq] at heq
          exact ⟨heq.1, heq.2⟩
        have hlen : rest.length = r2.length + 2 := by rw [e3]; simp
        simp only [List.length_cons] at hs
        split at hx
        · simp only [List.mem_cons] at hx
          rcases hx with hx | hx
          · exact absurd hx (by simp)
          · have := ih r2 (by omega) x hx
            rw [e3]
            simp [this]
        · simp only [List.mem_cons] at hx
          rcases hx with hx | hx
          · have hx37 : x = 37 := by
              have := hx
              simp [QTok.lit.injEq] at this
              omega
            simp [hx37, e0]
          · have := ih (h1 :: h2 :: r2) (by simp; omega) x hx
            rw [e3]
            simp [this]
      · rename_i cc c2 _ heq
        obtain ⟨e1, e2⟩ : c = cc ∧ rest = c2 := by
          simp only [List.cons.injEq] at heq
          exact heq
        simp only [List.mem_cons] at hx
        rcases hx with hx | hx
        · have : x = cc := by
            simpa [QTok.lit.injEq] using hx
          simp [this, e1]
        · simp only [List.length_cons] at hs
          have := ih c2 (by rw [← e2]; omega) x hx
          rw [e2]
          simp [this]

theorem decodeLoop_mem : ∀ (toks : List QTok) (acc : List Nat), ∀ x ∈ decodeLoop acc toks,
    validChar x ∨ QTok.lit x ∈ toks := by
  intro toks
  induction toks with
  | nil =>
    intro acc x hx
    exact Or.inl (utf8DecodeReplace_valid acc.length acc (le_refl _) x hx)
  | cons t rest ih =>
    intro acc x hx
    match t with
    | .byt b =>
      rcases ih (acc ++ [b]) x hx with h | h
      · exact Or.inl h
      · exact Or.inr (by simp [h])
    | .lit c =>
      have hx2 : x ∈ utf8DecodeReplace acc ++ c :: decodeLoop [] rest := hx
      rcases List.mem_append.mp hx2 with h | h
      · exact Or.inl (utf8DecodeReplace_valid acc.length acc (le_refl _) x h)
      · rcases List.mem_cons.mp h with h1 | h1
        · subst h1
          exact Or.inr (by simp)
        · rcases ih [] x h1 with h2 | h2
          · exact Or.inl h2
          · exact Or.inr (by simp [h2])

theorem pyUnquote_valid (s : List Nat) (hs : validStr s) : validStr (pyUnquote s) := by
  intro x hx
  rcases decodeLoop_mem (pctTokenize s) [] x hx with h | h
  · exact h
  · exact hs x (pctTokenize_lit_mem s.length s (le_refl _) x h)

/-! ## asciiLower and urlStrip lemmas -/

theorem asciiLower_cases (c : Nat) :
    (65 ≤ c ∧ c ≤ 90 ∧ asciiLower c = c + 32) ∨ (¬(65 ≤ c ∧ c ≤ 90) ∧ asciiLower c = c) := by
  unfold asciiLower isAsciiUpper
  by_cases h : 65 ≤ c ∧ c ≤ 90
  · exact Or.inl ⟨h.1, h.2,
      by rw [if_pos (by simp only [Bool.and_eq_true, decide_eq_true_eq]; omega)]⟩
  · exact Or.inr ⟨h,
      by rw [if_neg (by simp only [Bool.and_eq_true, decide_eq_true_eq]; omega)]⟩

theorem asciiLower_idem (c : Nat) : asciiLower (asciiLower c) = asciiLower c := by
  rcases asciiLower_cases c with ⟨h1, h2, h3⟩ | ⟨h1, h2⟩
  · rw [h3]
    rcases asciiLower_cases (c + 32) with ⟨g1, g2, g3⟩ | ⟨g1, g2⟩
    · omega
    · exact g2
  · rw [h2, h2]

theorem pyLower_idem (s : List Nat) : pyLower (pyLower s) = pyLower s := by
  unfold pyLower
  rw [List.map_map]
  exact List.map_congr_left (fun c _ => asciiLower_idem c)

theorem asciiLower_eq_of_lt (c bad : Nat) (hbad : bad < 97) (h : asciiLower c = bad) :
    c = bad := by
  rcases asciiLower_cases c with ⟨h1, h2, h3⟩ | ⟨h1, h2⟩
  · rw [h3] at h
    omega
  · rw [h2] at h
    exact h

theorem asciiLower_schemeChar (c : Nat) (h : isSchemeChar c = true) :
    isSchemeChar (asciiLower c) = true := by
  simp only [isSchemeChar, isAsciiAlnum, isAsciiAlpha, isAsciiUpper, isAsciiLowerC,
    isAsciiDigit, Bool.or_eq_true, Bool.and_eq_true, decide_eq_true_eq] at h ⊢
  rcases asciiLower_cases c with ⟨h1, h2, h3⟩ | ⟨h1, h2⟩
  · rw [h3]
    omega
  · rw [h2]
    omega

theorem asciiLower_alpha (c : Nat) (h : isAsciiAlpha c = true) :
    isAsciiAlpha (asciiLower c) = true := by
  simp only [isAsciiAlpha, isAsciiUpper, isAsciiLowerC, Bool.or_eq_true, Bool.and_eq_true,
    decide_eq_true_eq] at h ⊢
  rcases asciiLower_cases c with ⟨h1, h2, h3⟩ | ⟨h1, h2⟩
  · rw [h3]
    omega
  · rw [h2]
    omega

theorem urlStrip_eq_self (s : List Nat)
    (h1 : ∀ c, s.head? = some c → isC0OrSpace c = false)
    (h2 : ∀ c ∈ s, isUnsafeUrlByte c = false) : urlStrip s = s := by
  unfold urlStrip
  have hdrop : s.dropWhile isC0OrSpace = s := by
    match s with
    | [] => rfl
    | c :: rest =>
      rw [List.dropWhile_cons_of_neg]
      simp [h1 c rfl]
  rw [hdrop]
  exact List.filter_eq_self.mpr (fun c hc => by simp [h2 c hc])

theorem urlStrip_clean (s : List Nat) : ∀ c ∈ urlStrip s, isUnsafeUrlByte c = false := by
  intro c hc
  unfold urlStrip at hc
  have := List.of_mem_filter hc
  simpa using this

theorem urlStrip_subset (s : List Nat) : ∀ c ∈ urlStrip s, c ∈ s := by
  intro c hc
  unfold urlStrip at hc
  exact List.dropWhile_sublist isC0OrSpace |>.subset (List.mem_of_mem_filter hc)

/-! ## Parse phase lemmas -/

theorem head?_dropWhile_false (p : Nat → Bool) : ∀ (l : List Nat) (c : Nat),
    (l.dropWhile p).head? = some c → p c = false := by
  intro l
  induction l with
  | nil => intro c hc; simp at hc
  | cons x rest ih =>
    intro c hc
    by_cases hp : p x = true
    · rw [List.dropWhile_cons_of_pos hp] at hc
      exact ih c hc
    · rw [List.dropWhile_cons_of_neg hp] at hc
      simp only [List.head?_cons, Option.some.injEq] at hc
      subst hc
      simpa using hp

theorem takeWhile_append_all (p : Nat → Bool) : ∀ (a b : List Nat),
    (∀ x ∈ a, p x = true) → (∀ c, b.head? = some c → p c = false) →
      (a ++ b).takeWhile p = a := by
  intro a
  induction a with
  | nil =>
    intro b _ hb
    match b with
    | [] => rfl
    | d :: t =>
      simp only [List.nil_append]
      rw [List.takeWhile_cons_of_neg (by simp [hb d rfl])]
  | cons c rest ih =>
    intro b ha hb
    simp only [List.cons_append]
    rw [List.takeWhile_cons_of_pos (ha c (by simp))]
    rw [ih b (fun x hx => ha x (by simp [hx])) hb]

theorem dropWhile_append_all (p : Nat → Bool) : ∀ (a b : List Nat),
    (∀ x ∈ a, p x = true) → (∀ c, b.head? = some c → p c = false) →
      (a ++ b).dropWhile p = b := by
  intro a
  induction a with
  | nil =>
    intro b _ hb
    match b with
    | [] => rfl
    | d :: t =>
      simp only [List.nil_append]
      rw [List.dropWhile_cons_of_neg (by simp [hb d rfl])]
  | cons c rest ih =>
    intro b ha hb
    simp only [List.cons_append]
    rw [List.dropWhile_cons_of_pos (ha c (by simp))]
    rw [ih b (fun x hx => ha x (by simp [hx])) hb]

theorem splitScheme_of_scheme (sch rest : List Nat) (h1 : sch ≠ [])
    (h2 : ∀ c ∈ sch, isSchemeChar c = true)
    (h3 : ∀ c, sch.head? = some c → isAsciiAlpha c = true) :
    splitScheme (sch ++ 58 :: rest) = (pyLower sch, rest) := by
  have h58 : (58 : Nat) ∉ sch := by
    intro hmem
    have := h2 58 hmem
    simp [isSchemeChar, isAsciiAlnum, isAsciiAlpha, isAsciiUpper, isAsciiLowerC,
      isAsciiDigit] at this
  unfold splitScheme
  rw [splitOnFirst_append 58 sch rest h58]
  match sch, h1 with
  | c :: sch2, _ =>
    dsimp only
    rw [if_pos]
    rw [Bool.and_eq_true]
    constructor
    · exact h3 c rfl
    · rw [List.all_eq_true]
      intro x hx
      exact h2 x hx

theorem splitScheme_lower (u : List Nat) : pyLower (splitScheme u).1 = (splitScheme u).1 := by
  unfold splitScheme
  cases heq : splitOnFirst 58 u with
  | none => rfl
  | some p =>
    obtain ⟨before, after⟩ := p
    match before with
    | [] => rfl
    | c :: rest2 =>
      dsimp only
      by_cases hcond : (isAsciiAlpha c && (c :: rest2).all isSchemeChar) = true
      · rw [if_pos hcond]
        exact pyLower_idem _
      · rw [if_neg hcond]
        rfl

theorem splitScheme_ok (u : List Nat) (h : (splitScheme u).1 ≠ []) :
    SchemeOk (splitScheme u).1 := by
  unfold splitScheme at h ⊢
  cases heq : splitOnFirst 58 u with
  | none =>
    rw [heq] at h
    simp at h
  | some p =>
    obtain ⟨before, after⟩ := p
    rw [heq] at h
    match before with
    | [] => simp at h
    | c :: rest2 =>
      dsimp only at h ⊢
      by_cases hcond : (isAsciiAlpha c && (c :: rest2).all isSchemeChar) = true
      · rw [if_pos hcond]
        rw [Bool.and_eq_true, List.all_eq_true] at hcond
        refine ⟨by simp [pyLower], ?_, ?_, pyLower_idem _⟩
        · intro x hx
          simp only [pyLower, List.mem_map] at hx
          obtain ⟨y, hy, hxy⟩ := hx
          rw [← hxy]
          exact asciiLower_schemeChar y (hcond.2 y hy)
        · intro x hx
          simp only [pyLower, List.map_cons, List.head?_cons, Option.some.injEq] at hx
          rw [← hx]
          exact asciiLower_alpha c hcond.1
      · rw [if_neg hcond] at h
        simp at h

theorem splitScheme_snd_subset (u : List Nat) : ∀ c ∈ (splitScheme u).2, c ∈ u := by
  intro c hc
  unfold splitScheme at hc
  cases heq : splitOnFirst 58 u with
  | none =>
    rw [heq] at hc
    exact hc
  | some p =>
    obtain ⟨before, after⟩ := p
    rw [heq] at hc
    obtain ⟨hdecomp, _⟩ := splitOnFirst_sound 58 u before after heq
    match before with
    | [] => exact hc
    | c2 :: rest2 =>
      dsimp only at hc
      by_cases hcond : (isAsciiAlpha c2 && (c2 :: rest2).all isSchemeChar) = true
      · rw [if_pos hcond] at hc
        rw [hdecomp]
        simp only [List.mem_append, List.mem_cons]
        right
        right
        exact hc
      · rw [if_neg hcond] at hc
        exact hc



theorem splitNetloc_fst_ok (u : List Nat) : ∀ c ∈ (splitNetloc u).1, isNetlocEnd c = false := by
  intro c hc
  rw [splitNetloc.eq_def] at hc
  split at hc
  · have := List.mem_takeWhile_imp hc
    simpa using this
  · simp at hc

theorem splitNetloc_snd_head (u : List Nat) (hne : (splitNetloc u).1 ≠ []) :
    ∀ c, (splitNetloc u).2.head? = some c → isNetlocEnd c = true := by
  intro c hc
  rw [splitNetloc.eq_def] at hne hc
  split at hne
  · rename_i rest
    dsimp only at hc
    have := head?_dropWhile_false (fun c => !isNetlocEnd c) rest c hc
    simpa using this
  · simp at hne

theorem splitNetloc_of_parts (nl tail : List Nat) (hnl : ∀ c ∈ nl, isNetlocEnd c = false)
    (htail : ∀ c, tail.head? = some c → isNetlocEnd c = true) :
    splitNetloc (47 :: 47 :: (nl ++ tail)) = (nl, tail) := by
  rw [splitNetloc.eq_def]
  split
  · rename_i rest heq
    have hr : nl ++ tail = rest := by
      simpa using heq
    rw [← hr]
    rw [takeWhile_append_all _ nl tail (fun x hx => by simp [hnl x hx])
      (fun c hc => by simp [htail c hc])]
    rw [dropWhile_append_all _ nl tail (fun x hx => by simp [hnl x hx])
      (fun c hc => by simp [htail c hc])]
  · rename_i other hno
    exfalso
    exact hno (nl ++ tail) rfl

theorem splitNetloc_snd_subset (u : List Nat) : ∀ c ∈ (splitNetloc u).2, c ∈ u := by
  intro c hc
  rw [splitNetloc.eq_def] at hc
  split at hc
  · rename_i rest
    have := (List.dropWhile_sublist (fun c => !isNetlocEnd c)).subset hc
    simp [this]
  · exact hc

theorem splitNetloc_fst_subset (u : List Nat) : ∀ c ∈ (splitNetloc u).1, c ∈ u := by
  intro c hc
  rw [splitNetloc.eq_def] at hc
  split at hc
  · rename_i rest
    have := (List.takeWhile_sublist (fun c => !isNetlocEnd c)).subset hc
    simp [this]
  · simp at hc

theorem splitFragment_of_no35 (u : List Nat) (h : (35 : Nat) ∉ u) :
    splitFragment u = (u, []) := by
  unfold splitFragment
  rw [(splitOnFirst_eq_none_iff 35 u).mpr h]

theorem splitFragment_fst_no35 (u : List Nat) : (35 : Nat) ∉ (splitFragment u).1 := by
  unfold splitFragment
  cases heq : splitOnFirst 35 u with
  | none => exact (splitOnFirst_eq_none_iff 35 u).mp heq
  | some p => exact (splitOnFirst_sound 35 u p.1 p.2 (by rw [heq])).2

theorem splitFragment_fst_subset (u : List Nat) : ∀ c ∈ (splitFragment u).1, c ∈ u := by
  intro c hc
  unfold splitFragment at hc
  cases heq : splitOnFirst 35 u with
  | none =>
    rw [heq] at hc
    exact hc
  | some p =>
    rw [heq] at hc
    obtain ⟨hdec, _⟩ := splitOnFirst_sound 35 u p.1 p.2 (by rw [heq])
    rw [hdec]
    simp only [List.mem_append]
    exact Or.inl hc

theorem splitQuery_of_no63 (u : List Nat) (h : (63 : Nat) ∉ u) : splitQuery u = (u, []) := by
  unfold splitQuery
  rw [(splitOnFirst_eq_none_iff 63 u).mpr h]

theorem splitQuery_of_parts (a b : List Nat) (ha : (63 : Nat) ∉ a) :
    splitQuery (a ++ 63 :: b) = (a, b) := by
  unfold splitQuery
  rw [splitOnFirst_append 63 a b ha]

theorem splitQuery_fst_no63 (u : List Nat) : (63 : Nat) ∉ (splitQuery u).1 := by
  unfold splitQuery
  cases heq : splitOnFirst 63 u with
  | none => exact (splitOnFirst_eq_none_iff 63 u).mp heq
  | some p => exact (splitOnFirst_sound 63 u p.1 p.2 (by rw [heq])).2

theorem splitQuery_fst_subset (u : List Nat) : ∀ c ∈ (splitQuery u).1, c ∈ u := by
  intro c hc
  unfold splitQuery at hc
  cases heq : splitOnFirst 63 u with
  | none =>
    rw [heq] at hc
    exact hc
  | some p =>
    rw [heq] at hc
    obtain ⟨hdec, _⟩ := splitOnFirst_sound 63 u p.1 p.2 (by rw [heq])
    rw [hdec]
    simp only [List.mem_append]
    exact Or.inl hc

theorem splitQuery_snd_subset (u : List Nat) : ∀ c ∈ (splitQuery u).2, c ∈ u := by
  intro c hc
  unfold splitQuery at hc
  cases heq : splitOnFirst 63 u with
  | none =>
    rw [heq] at hc
    simp at hc
  | some p =>
    rw [heq] at hc
    obtain ⟨hdec, _⟩ := splitOnFirst_sound 63 u p.1 p.2 (by rw [heq])
    rw [hdec]
    simp only [List.mem_append, List.mem_cons]
    right
    right
    exact hc

/-! ## splitParams lemmas -/

theorem splitOnLast_of_mem (d : Nat) (s : List Nat) (h : d ∈ s) :
    ∃ pr, splitOnLast d s = some pr := by
  cases heq : splitOnLast d s with
  | none => exact absurd ((splitOnLast_eq_none_iff d s).mp heq) (by simp [h])
  | some pr => exact ⟨pr, rfl⟩

theorem lastPathSegment_eq (p : List Nat) (pr : List Nat × List Nat)
    (h : splitOnLast 47 p = some pr) : lastPathSegment p = pr.2 := by
  unfold lastPathSegment
  rw [h]

theorem splitParams_no_semi_in_seg (p : List Nat) (hhead : p.head? = some 47)
    (hseg : (59 : Nat) ∉ lastPathSegment p) : splitParams p = (p, []) := by
  have h47 : (47 : Nat) ∈ p := by
    match p, hhead with
    | 47 :: t, _ => simp
  obtain ⟨pr, heq⟩ := splitOnLast_of_mem 47 p h47
  obtain ⟨pre, seg⟩ := pr
  rw [lastPathSegment_eq p (pre, seg) heq] at hseg
  unfold splitParams
  rw [heq]
  dsimp only
  rw [(splitOnFirst_eq_none_iff 59 seg).mpr hseg]

theorem splitParams_append (p par : List Nat) (hhead : p.head? = some 47)
    (hseg : (59 : Nat) ∉ lastPathSegment p) (hpar47 : (47 : Nat) ∉ par) :
    splitParams (p ++ 59 :: par) = (p, par) := by
  have h47 : (47 : Nat) ∈ p := by
    match p, hhead with
    | 47 :: t, _ => simp
  obtain ⟨pr, heq⟩ := splitOnLast_of_mem 47 p h47
  obtain ⟨pre, seg⟩ := pr
  obtain ⟨hdec, h47seg⟩ := splitOnLast_sound 47 p pre seg (by rw [heq])
  rw [lastPathSegment_eq p (pre, seg) heq] at hseg
  have hdec2 : p ++ 59 :: par = pre ++ 47 :: (seg ++ 59 :: par) := by
    rw [hdec]
    simp
  unfold splitParams
  rw [hdec2, splitOnLast_append 47 pre (seg ++ 59 :: par) (by
    simp only [List.mem_append, List.mem_cons]
    rintro (h | h | h)
    · exact h47seg h
    · exact absurd h (by omega)
    · exact hpar47 h)]
  dsimp only
  rw [splitOnFirst_append 59 seg par hseg]
  rw [hdec]

theorem splitParams_fst_subset (u : List Nat) : ∀ c ∈ (splitParams u).1, c ∈ u := by
  intro c hc
  unfold splitParams at hc
  cases hl : splitOnLast 47 u with
  | some pr =>
    obtain ⟨pre, seg⟩ := pr
    obtain ⟨hdec, _⟩ := splitOnLast_sound 47 u pre seg (by rw [hl])
    rw [hl] at hc
    dsimp only at hc
    cases hf : splitOnFirst 59 seg with
    | some q =>
      obtain ⟨a, b⟩ := q
      obtain ⟨hdec2, _⟩ := splitOnFirst_sound 59 seg a b (by rw [hf])
      rw [hf] at hc
      dsimp only at hc
      rw [hdec, hdec2]
      simp only [List.mem_append, List.mem_cons] at hc ⊢
      tauto
    | none =>
      rw [hf] at hc
      exact hc
  | none =>
    rw [hl] at hc
    dsimp only at hc
    cases hf : splitOnFirst 59 u with
    | some q =>
      obtain ⟨a, b⟩ := q
      obtain ⟨hdec2, _⟩ := splitOnFirst_sound 59 u a b (by rw [hf])
      rw [hf] at hc
      dsimp only at hc
      rw [hdec2]
      simp only [List.mem_append]
      exact Or.inl hc
    | none =>
      rw [hf] at hc
      exact hc

theorem splitParams_snd_subset (u : List Nat) : ∀ c ∈ (splitParams u).2, c ∈ u := by
  intro c hc
  unfold splitParams at hc
  cases hl : splitOnLast 47 u with
  | some pr =>
    obtain ⟨pre, seg⟩ := pr
    obtain ⟨hdec, _⟩ := splitOnLast_sound 47 u pre seg (by rw [hl])
    rw [hl] at hc
    dsimp only at hc
    cases hf : splitOnFirst 59 seg with
    | some q =>
      obtain ⟨a, b⟩ := q
      obtain ⟨hdec2, _⟩ := splitOnFirst_sound 59 seg a b (by rw [hf])
      rw [hf] at hc
      dsimp only at hc
      rw [hdec, hdec2]
      simp only [List.mem_append, List.mem_cons]
      tauto
    | none =>
      rw [hf] at hc
      simp at hc
  | none =>
    rw [hl] at hc
    dsimp only at hc
    cases hf : splitOnFirst 59 u with
    | some q =>
      obtain ⟨a, b⟩ := q
      obtain ⟨hdec2, _⟩ := splitOnFirst_sound 59 u a b (by rw [hf])
      rw [hf] at hc
      dsimp only at hc
      rw [hdec2]
      simp only [List.mem_append, List.mem_cons]
      tauto
    | none =>
      rw [hf] at hc
      simp at hc

theorem splitParams_snd_no47 (u : List Nat) : (47 : Nat) ∉ (splitParams u).2 := by
  intro hc
  unfold splitParams at hc
  cases hl : splitOnLast 47 u with
  | some pr =>
    obtain ⟨pre, seg⟩ := pr
    obtain ⟨_, hseg⟩ := splitOnLast_sound 47 u pre seg (by rw [hl])
    rw [hl] at hc
    dsimp only at hc
    cases hf : splitOnFirst 59 seg with
    | some q =>
      obtain ⟨a, b⟩ := q
      obtain ⟨hdec2, _⟩ := splitOnFirst_sound 59 seg a b (by rw [hf])
      rw [hf] at hc
      dsimp only at hc
      exact hseg (by rw [hdec2]; simp only [List.mem_append, List.mem_cons]; tauto)
    | none =>
      rw [hf] at hc
      simp at hc
  | none =>
    have h47 : (47 : Nat) ∉ u := (splitOnLast_eq_none_iff 47 u).mp hl
    rw [hl] at hc
    dsimp only at hc
    cases hf : splitOnFirst 59 u with
    | some q =>
      obtain ⟨a, b⟩ := q
      obtain ⟨hdec2, _⟩ := splitOnFirst_sound 59 u a b (by rw [hf])
      rw [hf] at hc
      dsimp only at hc
      exact h47 (by rw [hdec2]; simp only [List.mem_append, List.mem_cons]; tauto)
    | none =>
      rw [hf] at hc
      simp at hc

theorem splitParams_fst_head (u : List Nat) :
    (splitParams u).1 = [] ∨ (splitParams u).1.head? = u.head? := by
  unfold splitParams
  cases hl : splitOnLast 47 u with
  | some pr =>
    obtain ⟨pre, seg⟩ := pr
    obtain ⟨hdec, _⟩ := splitOnLast_sound 47 u pre seg (by rw [hl])
    dsimp only
    cases hf : splitOnFirst 59 seg with
    | some q =>
      obtain ⟨a, b⟩ := q
      dsimp only
      right
      rw [hdec]
      match pre with
      | [] => simp
      | x :: t => simp
    | none =>
      right
      rfl
  | none =>
    dsimp only
    cases hf : splitOnFirst 59 u with
    | some q =>
      obtain ⟨a, b⟩ := q
      obtain ⟨hdec2, _⟩ := splitOnFirst_sound 59 u a b (by rw [hf])
      dsimp only
      match a, hdec2 with
      | [], _ => exact Or.inl rfl
      | x :: t, hdec2 =>
        right
        rw [hdec2]
        simp
    | none =>
      right
      rfl

/-! ## Character-class and re-split helper lemmas -/

theorem quoteAlwaysSafe_range (c : Nat) (h : quoteAlwaysSafe c = true) : 45 ≤ c ∧ c ≤ 126 := by
  simp only [quoteAlwaysSafe, isAsciiAlnum, isAsciiAlpha, isAsciiUpper, isAsciiLowerC,
    isAsciiDigit, Bool.or_eq_true, Bool.and_eq_true, decide_eq_true_eq] at h
  omega

theorem isSchemeChar_clean (c : Nat) (h : isSchemeChar c = true) :
    isUnsafeUrlByte c = false := by
  simp only [isSchemeChar, isAsciiAlnum, isAsciiAlpha, isAsciiUpper, isAsciiLowerC,
    isAsciiDigit, Bool.or_eq_true, Bool.and_eq_true, decide_eq_true_eq] at h
  simp only [isUnsafeUrlByte, Bool.or_eq_false_iff, decide_eq_false_iff_not]
  omega

theorem asciiLower_not_netlocEnd (c : Nat) (h : isNetlocEnd c = false) :
    isNetlocEnd (asciiLower c) = false := by
  simp only [isNetlocEnd, Bool.or_eq_false_iff, decide_eq_false_iff_not] at h ⊢
  rcases asciiLower_cases c with ⟨h1, h2, h3⟩ | ⟨h1, h2⟩
  · rw [h3]
    omega
  · rw [h2]
    exact h

theorem asciiLower_clean (c : Nat) (h : isUnsafeUrlByte c = false) :
    isUnsafeUrlByte (asciiLower c) = false := by
  simp only [isUnsafeUrlByte, Bool.or_eq_false_iff, decide_eq_false_iff_not] at h ⊢
  rcases asciiLower_cases c with ⟨h1, h2, h3⟩ | ⟨h1, h2⟩
  · rw [h3]
    omega
  · rw [h2]
    exact h

theorem pyQuote_pathSafe_props (s : List Nat) (hs : validStr s) :
    ∀ x ∈ pyQuote pathSafe s, x ≠ 35 ∧ x ≠ 63 ∧ isUnsafeUrlByte x = false := by
  intro x hx
  have h35 : x ≠ 35 := fun he =>
    pyQuote_not_mem pathSafe s hs 35 (by decide) (by decide) (by decide) (by decide)
      (by decide) (he ▸ hx)
  have h63 : x ≠ 63 := fun he =>
    pyQuote_not_mem pathSafe s hs 63 (by decide) (by decide) (by decide) (by decide)
      (by decide) (he ▸ hx)
  have h9 : x ≠ 9 := fun he =>
    pyQuote_not_mem pathSafe s hs 9 (by decide) (by decide) (by decide) (by decide)
      (by decide) (he ▸ hx)
  have h13 : x ≠ 13 := fun he =>
    pyQuote_not_mem pathSafe s hs 13 (by decide) (by decide) (by decide) (by decide)
      (by decide) (he ▸ hx)
  have h10 : x ≠ 10 := fun he =>
    pyQuote_not_mem pathSafe s hs 10 (by decide) (by decide) (by decide) (by decide)
      (by decide) (he ▸ hx)
  refine ⟨h35, h63, ?_⟩
  simp only [isUnsafeUrlByte, Bool.or_eq_false_iff, decide_eq_false_iff_not]
  exact ⟨⟨h9, h13⟩, h10⟩

theorem pyQuote_querySafe_props (s : List Nat) (hs : validStr s) :
    ∀ x ∈ pyQuote querySafe s, x ≠ 35 ∧ isUnsafeUrlByte x = false := by
  intro x hx
  have h35 : x ≠ 35 := fun he =>
    pyQuote_not_mem querySafe s hs 35 (by decide) (by decide) (by decide) (by decide)
      (by decide) (he ▸ hx)
  have h9 : x ≠ 9 := fun he =>
    pyQuote_not_mem querySafe s hs 9 (by decide) (by decide) (by decide) (by decide)
      (by decide) (he ▸ hx)
  have h13 : x ≠ 13 := fun he =>
    pyQuote_not_mem querySafe s hs 13 (by decide) (by decide) (by decide) (by decide)
      (by decide) (he ▸ hx)
  have h10 : x ≠ 10 := fun he =>
    pyQuote_not_mem querySafe s hs 10 (by decide) (by decide) (by decide) (by decide)
      (by decide) (he ▸ hx)
  refine ⟨h35, ?_⟩
  simp only [isUnsafeUrlByte, Bool.or_eq_false_iff, decide_eq_false_iff_not]
  exact ⟨⟨h9, h13⟩, h10⟩

theorem splitOnFirst_cons_ne (d c : Nat) (t : List Nat) (h : c ≠ d) :
    splitOnFirst d (c :: t) = (splitOnFirst d t).map (fun p => (c :: p.1, p.2)) := by
  rw [splitOnFirst.eq_def]
  dsimp only
  rw [if_neg h]

theorem splitFragment_fst_cons_ne (c : Nat) (t : List Nat) (h : c ≠ 35) :
    (splitFragment (c :: t)).1 = c :: (splitFragment t).1 := by
  unfold splitFragment
  rw [splitOnFirst_cons_ne 35 c t h]
  cases splitOnFirst 35 t with
  | none => rfl
  | some p => rfl

theorem splitQuery_fst_cons_ne (c : Nat) (t : List Nat) (h : c ≠ 63) :
    (splitQuery (c :: t)).1 = c :: (splitQuery t).1 := by
  unfold splitQuery
  rw [splitOnFirst_cons_ne 63 c t h]
  cases splitOnFirst 63 t with
  | none => rfl
  | some p => rfl

theorem splitFragment_cons_35 (t : List Nat) : splitFragment (35 :: t) = ([], t) := by
  simp [splitFragment, splitOnFirst]

theorem splitQuery_cons_63 (t : List Nat) : splitQuery (63 :: t) = ([], t) := by
  simp [splitQuery, splitOnFirst]

/-! ## Component lemmas for `pyUrlsplit` and `pyUrlparse` -/

theorem pyUrlsplit_scheme_eq (u : List Nat) :
    (pyUrlsplit u).scheme = (splitScheme (urlStrip u)).1 := rfl

theorem pyUrlsplit_netloc_eq (u : List Nat) :
    (pyUrlsplit u).netloc = (splitNetloc (splitScheme (urlStrip u)).2).1 := rfl

theorem pyUrlsplit_path_eq (u : List Nat) :
    (pyUrlsplit u).path =
      (splitQuery (splitFragment (splitNetloc (splitScheme (urlStrip u)).2).2).1).1 := rfl

theorem pyUrlsplit_query_eq (u : List Nat) :
    (pyUrlsplit u).query =
      (splitQuery (splitFragment (splitNetloc (splitScheme (urlStrip u)).2).2).1).2 := rfl

theorem pyUrlsplit_scheme_ok (u : List Nat) (h : (pyUrlsplit u).scheme ≠ []) :
    SchemeOk (pyUrlsplit u).scheme := by
  rw [pyUrlsplit_scheme_eq] at h ⊢
  exact splitScheme_ok _ h

theorem pyUrlsplit_netloc_props (u : List Nat) : ∀ c ∈ (pyUrlsplit u).netloc,
    isNetlocEnd c = false ∧ isUnsafeUrlByte c = false ∧ c ∈ urlStrip u := by
  intro c hc
  rw [pyUrlsplit_netloc_eq] at hc
  have h1 : c ∈ (splitScheme (urlStrip u)).2 := splitNetloc_fst_subset _ c hc
  have h2 : c ∈ urlStrip u := splitScheme_snd_subset _ c h1
  exact ⟨splitNetloc_fst_ok _ c hc, urlStrip_clean u c h2, h2⟩

theorem pyUrlsplit_path_props (u : List Nat) : ∀ c ∈ (pyUrlsplit u).path,
    c ≠ 35 ∧ c ≠ 63 ∧ isUnsafeUrlByte c = false ∧ c ∈ urlStrip u := by
  intro c hc
  rw [pyUrlsplit_path_eq] at hc
  have hno63 : c ≠ 63 := fun he => splitQuery_fst_no63 _ (he ▸ hc)
  have hf : c ∈ (splitFragment (splitNetloc (splitScheme (urlStrip u)).2).2).1 :=
    splitQuery_fst_subset _ c hc
  have hno35 : c ≠ 35 := fun he => splitFragment_fst_no35 _ (he ▸ hf)
  have h2 : c ∈ (splitNetloc (splitScheme (urlStrip u)).2).2 := splitFragment_fst_subset _ c hf
  have h3 : c ∈ (splitScheme (urlStrip u)).2 := splitNetloc_snd_subset _ c h2
  have h4 : c ∈ urlStrip u := splitScheme_snd_subset _ c h3
  exact ⟨hno35, hno63, urlStrip_clean u c h4, h4⟩

theorem pyUrlsplit_query_props (u : List Nat) : ∀ c ∈ (pyUrlsplit u).query,
    c ≠ 35 ∧ isUnsafeUrlByte c = false ∧ c ∈ urlStrip u := by
  intro c hc
  rw [pyUrlsplit_query_eq] at hc
  have hf : c ∈ (splitFragment (splitNetloc (splitScheme (urlStrip u)).2).2).1 :=
    splitQuery_snd_subset _ c hc
  have hno35 : c ≠ 35 := fun he => splitFragment_fst_no35 _ (he ▸ hf)
  have h2 : c ∈ (splitNetloc (splitScheme (urlStrip u)).2).2 := splitFragment_fst_subset _ c hf
  have h3 : c ∈ (splitScheme (urlStrip u)).2 := splitNetloc_snd_subset _ c h2
  have h4 : c ∈ urlStrip u := splitScheme_snd_subset _ c h3
  exact ⟨hno35, urlStrip_clean u c h4, h4⟩

theorem pyUrlsplit_path_head (u : List Nat) (h : (pyUrlsplit u).netloc ≠ []) :
    (pyUrlsplit u).path = [] ∨ (pyUrlsplit u).path.head? = some 47 := by
  rw [pyUrlsplit_netloc_eq] at h
  rw [pyUrlsplit_path_eq]
  cases hR : (splitNetloc (splitScheme (urlStrip u)).2).2 with
  | nil =>
    left
    rfl
  | cons c t =>
    have hend : isNetlocEnd c = true := splitNetloc_snd_head _ h c (by rw [hR]; rfl)
    simp only [isNetlocEnd, Bool.or_eq_true, decide_eq_true_eq] at hend
    rcases hend with (h47 | h63) | h35
    · subst h47
      right
      rw [splitFragment_fst_cons_ne 47 t (by decide)]
      rw [splitQuery_fst_cons_ne 47 _ (by decide)]
      rfl
    · subst h63
      left
      rw [splitFragment_fst_cons_ne 63 t (by decide)]
      rw [splitQuery_cons_63]
    · subst h35
      left
      rw [splitFragment_cons_35]
      rfl

theorem pyUrlparse_scheme_eq (u : List Nat) :
    (pyUrlparse u).scheme = (pyUrlsplit u).scheme := rfl

theorem pyUrlparse_netloc_eq (u : List Nat) :
    (pyUrlparse u).netloc = (pyUrlsplit u).netloc := rfl

theorem pyUrlparse_query_eq (u : List Nat) :
    (pyUrlparse u).query = (pyUrlsplit u).query := rfl

theorem pyUrlparse_path_if (u : List Nat) :
    (pyUrlparse u).path =
      (if (pyUrlsplit u).scheme ∈ usesParams ∧ 59 ∈ (pyUrlsplit u).path then
        splitParams (pyUrlsplit u).path else ((pyUrlsplit u).path, [])).1 := rfl

theorem pyUrlparse_params_if (u : List Nat) :
    (pyUrlparse u).params =
      (if (pyUrlsplit u).scheme ∈ usesParams ∧ 59 ∈ (pyUrlsplit u).path then
        splitParams (pyUrlsplit u).path else ((pyUrlsplit u).path, [])).2 := rfl

theorem pyUrlparse_path_subset (u : List Nat) :
    ∀ c ∈ (pyUrlparse u).path, c ∈ (pyUrlsplit u).path := by
  intro c hc
  rw [pyUrlparse_path_if] at hc
  split at hc
  · exact splitParams_fst_subset _ c hc
  · exact hc

theorem pyUrlparse_params_subset (u : List Nat) :
    ∀ c ∈ (pyUrlparse u).params, c ∈ (pyUrlsplit u).path := by
  intro c hc
  rw [pyUrlparse_params_if] at hc
  split at hc
  · exact splitParams_snd_subset _ c hc
  · simp at hc

theorem pyUrlparse_params_no47 (u : List Nat) : (47 : Nat) ∉ (pyUrlparse u).params := by
  rw [pyUrlparse_params_if]
  split
  · exact splitParams_snd_no47 _
  · simp

theorem pyUrlparse_params_scheme (u : List Nat) (h : (pyUrlparse u).params ≠ []) :
    (pyUrlsplit u).scheme ∈ usesParams := by
  rw [pyUrlparse_params_if] at h
  split at h
  · rename_i hcond
    exact hcond.1
  · simp at h

theorem pyUrlparse_path_head (u : List Nat) (h : (pyUrlsplit u).netloc ≠ []) :
    (pyUrlparse u).path = [] ∨ (pyUrlparse u).path.head? = some 47 := by
  rcases pyUrlsplit_path_head u h with hnil | hhead
  · rw [pyUrlparse_path_if]
    split
    · rename_i hcond
      rw [hnil] at hcond
      simp at hcond
    · left
      exact hnil
  · rw [pyUrlparse_path_if]
    split
    · rcases splitParams_fst_head (pyUrlsplit u).path with h1 | h1
      · left
        exact h1
      · right
        rw [h1]
        exact hhead
    · right
      exact hhead

/-! ## Re-parsing an assembled URL -/

theorem pyUrlsplit_assemble (scheme netloc rest : List Nat)
    (hsch : SchemeOk scheme)
    (hnl : ∀ c ∈ netloc, isNetlocEnd c = false ∧ isUnsafeUrlByte c = false)
    (hrest_head : ∀ c, rest.head? = some c → isNetlocEnd c = true)
    (hrest_clean : ∀ c ∈ rest, isUnsafeUrlByte c = false) :
    pyUrlsplit (scheme ++ 58 :: 47 :: 47 :: (netloc ++ rest)) =
      ⟨scheme, netloc,
        (splitQuery (splitFragment rest).1).1,
        (splitQuery (splitFragment rest).1).2,
        (splitFragment rest).2⟩ := by
  obtain ⟨hs_ne, hs_chars, hs_head, hs_low⟩ := hsch
  have hstrip : urlStrip (scheme ++ 58 :: 47 :: 47 :: (netloc ++ rest)) =
      scheme ++ 58 :: 47 :: 47 :: (netloc ++ rest) := by
    apply urlStrip_eq_self
    · intro c hc
      match scheme, hs_ne with
      | c0 :: s2, _ =>
        simp only [List.cons_append, List.head?_cons, Option.some.injEq] at hc
        subst hc
        have halpha := hs_head c0 rfl
        simp only [isAsciiAlpha, isAsciiUpper, isAsciiLowerC, Bool.or_eq_true,
          Bool.and_eq_true, decide_eq_true_eq] at halpha
        simp only [isC0OrSpace, decide_eq_false_iff_not]
        omega
    · intro c hc
      simp only [List.mem_append, List.mem_cons] at hc
      rcases hc with h | h | h | h | h
      · exact isSchemeChar_clean c (hs_chars c h)
      · subst h
        decide
      · subst h
        decide
      · subst h
        decide
      · rcases h with h2 | h2
        · exact (hnl c h2).2
        · exact hrest_clean c h2
  simp only [pyUrlsplit]
  rw [hstrip]
  rw [splitScheme_of_scheme scheme (47 :: 47 :: (netloc ++ rest)) hs_ne hs_chars hs_head]
  rw [hs_low]
  dsimp only
  rw [splitNetloc_of_parts netloc rest (fun c hc => (hnl c hc).1) hrest_head]

theorem pyUrlsplit_unsplit (scheme netloc path query : List Nat)
    (hsch : SchemeOk scheme)
    (hnl_ne : netloc ≠ [])
    (hnl : ∀ c ∈ netloc, isNetlocEnd c = false ∧ isUnsafeUrlByte c = false)
    (hpath_head : path = [] ∨ path.head? = some 47)
    (hpath : ∀ c ∈ path, c ≠ 35 ∧ c ≠ 63 ∧ isUnsafeUrlByte c = false)
    (hq : ∀ c ∈ query, c ≠ 35 ∧ isUnsafeUrlByte c = false) :
    pyUrlsplit (pyUrlunsplit scheme netloc path query []) =
      ⟨scheme, netloc, path, query, []⟩ := by
  have hu0 : (if path ≠ [] ∧ path.take 1 ≠ [47] then 47 :: path else path) = path := by
    rw [if_neg]
    intro hcon
    rcases hpath_head with h | h
    · exact hcon.1 h
    · apply hcon.2
      match path, h with
      | c :: t, h =>
        have hc : c = 47 := by simpa using h
        subst hc
        simp
  by_cases hqe : query = []
  · subst hqe
    have hform : pyUrlunsplit scheme netloc path [] [] =
        scheme ++ 58 :: 47 :: 47 :: (netloc ++ path) := by
      simp only [pyUrlunsplit]
      rw [if_pos (Or.inl hnl_ne), hu0, if_pos hsch.1, if_neg (by simp), if_neg (by simp)]
    rw [hform]
    rw [pyUrlsplit_assemble scheme netloc path hsch hnl
      (by
        intro c hc
        rcases hpath_head with h | h
        · rw [h] at hc
          simp at hc
        · rw [h] at hc
          have hc47 : 47 = c := by simpa using hc
          subst hc47
          decide)
      (fun c hc => (hpath c hc).2.2)]
    rw [splitFragment_of_no35 path (fun hmem => (hpath 35 hmem).1 rfl)]
    dsimp only
    rw [splitQuery_of_no63 path (fun hmem => (hpath 63 hmem).2.1 rfl)]
  · have hform : pyUrlunsplit scheme netloc path query [] =
        scheme ++ 58 :: 47 :: 47 :: (netloc ++ (path ++ 63 :: query)) := by
      simp only [pyUrlunsplit]
      rw [if_pos (Or.inl hnl_ne), hu0, if_pos hsch.1, if_pos hqe, if_neg (by simp)]
      simp [List.append_assoc]
    rw [hform]
    rw [pyUrlsplit_assemble scheme netloc (path ++ 63 :: query) hsch hnl
      (by
        intro c hc
        rcases hpath_head with h | h
        · rw [h] at hc
          have hc63 : 63 = c := by simpa using hc
          subst hc63
          decide
        · match path, h with
          | c0 :: t, h =>
            have hc0 : c0 = 47 := by simpa using h
            subst hc0
            have hc47 : 47 = c := by simpa using hc
            subst hc47
            decide)
      (by
        intro c hc
        simp only [List.mem_append, List.mem_cons] at hc
        rcases hc with h | h | h
        · exact (hpath c h).2.2
        · subst h
          decide
        · exact (hq c h).2)]
    rw [splitFragment_of_no35 (path ++ 63 :: query) (by
      intro hmem
      simp only [List.mem_append, List.mem_cons] at hmem
      rcases hmem with h | h | h
      · exact (hpath 35 h).1 rfl
      · simp at h
      · exact (hq 35 h).1 rfl)]
    dsimp only
    rw [splitQuery_of_parts path query (fun hmem => (hpath 63 hmem).2.1 rfl)]

theorem pyUrlparse_unparse (scheme netloc path params query : List Nat)
    (hsch : SchemeOk scheme)
    (hnl_ne : netloc ≠ [])
    (hnl : ∀ c ∈ netloc, isNetlocEnd c = false ∧ isUnsafeUrlByte c = false)
    (hpath_head : path.head? = some 47)
    (hpath : ∀ c ∈ path, c ≠ 35 ∧ c ≠ 63 ∧ isUnsafeUrlByte c = false)
    (hparams : ∀ c ∈ params, c ≠ 35 ∧ c ≠ 63 ∧ isUnsafeUrlByte c = false)
    (hpar47 : (47 : Nat) ∉ params)
    (hparsch : params ≠ [] → scheme ∈ usesParams)
    (hseg : (59 : Nat) ∉ lastPathSegment path)
    (hq : ∀ c ∈ query, c ≠ 35 ∧ isUnsafeUrlByte c = false) :
    pyUrlparse (pyUrlunparse scheme netloc path params query []) =
      ⟨scheme, netloc, path, params, query, []⟩ := by
  by_cases hpe : params = []
  · subst hpe
    have h1 : pyUrlunparse scheme netloc path [] query [] =
        pyUrlunsplit scheme netloc path query [] := by
      simp only [pyUrlunparse]
      rw [if_neg (by simp)]
    rw [h1]
    simp only [pyUrlparse]
    rw [pyUrlsplit_unsplit scheme netloc path query hsch hnl_ne hnl (Or.inr hpath_head)
      hpath hq]
    dsimp only
    by_cases hcond : scheme ∈ usesParams ∧ 59 ∈ path
    · rw [if_pos hcond, splitParams_no_semi_in_seg path hpath_head hseg]
    · rw [if_neg hcond]
  · have h1 : pyUrlunparse scheme netloc path params query [] =
        pyUrlunsplit scheme netloc (path ++ 59 :: params) query [] := by
      simp only [pyUrlunparse]
      rw [if_pos hpe]
    rw [h1]
    simp only [pyUrlparse]
    rw [pyUrlsplit_unsplit scheme netloc (path ++ 59 :: params) query hsch hnl_ne hnl
      (Or.inr (by
        match path, hpath_head with
        | c :: t, h =>
          have hc : c = 47 := by simpa using h
          subst hc
          rfl))
      (by
        intro c hc
        simp only [List.mem_append, List.mem_cons] at hc
        rcases hc with h | h | h
        · exact hpath c h
        · subst h
          exact ⟨by decide, by decide, by decide⟩
        · exact hparams c h)
      hq]
    dsimp only
    rw [if_pos ⟨hparsch hpe, by simp⟩]
    rw [splitParams_append path params hpath_head hseg hpar47]

theorem splitParams_head47 (u : List Nat) (h : u.head? = some 47) :
    (splitParams u).2 = [] ∨ (splitParams u).1.head? = some 47 := by
  have h47 : (47 : Nat) ∈ u := by
    match u, h with
    | 47 :: t, _ => simp
  obtain ⟨pr, heq⟩ := splitOnLast_of_mem 47 u h47
  obtain ⟨pre, seg⟩ := pr
  obtain ⟨hdec, _⟩ := splitOnLast_sound 47 u pre seg (by rw [heq])
  unfold splitParams
  rw [heq]
  dsimp only
  cases hf : splitOnFirst 59 seg with
  | none =>
    left
    rfl
  | some q =>
    obtain ⟨a, b⟩ := q
    right
    dsimp only
    match pre, hdec, h with
    | [], _, _ => rfl
    | c :: t, hdec, h =>
      have hc : c = 47 := by
        rw [hdec] at h
        simpa using h
      subst hc
      rfl

theorem pyUrlparse_params_path_head (u : List Nat) (hn : (pyUrlsplit u).netloc ≠ [])
    (hp : (pyUrlparse u).params ≠ []) : (pyUrlparse u).path.head? = some 47 := by
  have hcond : (pyUrlsplit u).scheme ∈ usesParams ∧ 59 ∈ (pyUrlsplit u).path := by
    by_contra hcon
    rw [pyUrlparse_params_if, if_neg hcon] at hp
    exact hp rfl
  have hne : (pyUrlsplit u).path ≠ [] := by
    intro he
    rw [he] at hcond
    simp at hcond
  have hhead : (pyUrlsplit u).path.head? = some 47 :=
    (pyUrlsplit_path_head u hn).resolve_left hne
  rcases splitParams_head47 _ hhead with h1 | h1
  · exfalso
    apply hp
    rw [pyUrlparse_params_if, if_pos hcond]
    exact h1
  · rw [pyUrlparse_path_if, if_pos hcond]
    exact h1

theorem normalizeUrl_eq (u : List Nat) :
    normalizeUrl u =
      pyUrlunparse (pyLower (pyUrlparse u).scheme) (pyLower (pyUrlparse u).netloc)
        (if pyQuote pathSafe (pyUnquote (pyUrlparse u).path) = [] then [47]
         else pyQuote pathSafe (pyUnquote (pyUrlparse u).path))
        (pyUrlparse u).params (pyQuote querySafe (pyUnquote (pyUrlparse u).query)) [] := rfl

theorem normalizeUrl_fix (sch nl P par Q : List Nat)
    (hsch : SchemeOk sch)
    (hnl_ne : nl ≠ [])
    (hnl : ∀ c ∈ nl, isNetlocEnd c = false ∧ isUnsafeUrlByte c = false)
    (hP_head : P.head? = some 47)
    (hP : ∀ c ∈ P, c ≠ 35 ∧ c ≠ 63 ∧ isUnsafeUrlByte c = false)
    (hpar : ∀ c ∈ par, c ≠ 35 ∧ c ≠ 63 ∧ isUnsafeUrlByte c = false)
    (hpar47 : (47 : Nat) ∉ par)
    (hparsch : par ≠ [] → sch ∈ usesParams)
    (hseg : (59 : Nat) ∉ lastPathSegment P)
    (hQ : ∀ c ∈ Q, c ≠ 35 ∧ isUnsafeUrlByte c = false)
    (hnl_low : pyLower nl = nl)
    (hPfix : pyQuote pathSafe (pyUnquote P) = P)
    (hQfix : pyQuote querySafe (pyUnquote Q) = Q) :
    normalizeUrl (pyUrlunparse sch nl P par Q []) = pyUrlunparse sch nl P par Q [] := by
  rw [normalizeUrl_eq]
  rw [pyUrlparse_unparse sch nl P par Q hsch hnl_ne hnl hP_head hP hpar hpar47 hparsch hseg hQ]
  dsimp only
  rw [hsch.2.2.2, hnl_low, hPfix, hQfix]
  rw [if_neg (by
    intro he
    rw [he] at hP_head
    simp at hP_head)]

theorem pyUrlparse_unparse_scheme (scheme netloc path params query : List Nat)
    (hsch : SchemeOk scheme)
    (hnl_ne : netloc ≠ [])
    (hnl : ∀ c ∈ netloc, isNetlocEnd c = false ∧ isUnsafeUrlByte c = false)
    (hpath_head : path = [] ∨ path.head? = some 47)
    (hpar_head : params ≠ [] → path.head? = some 47)
    (hpath : ∀ c ∈ path, c ≠ 35 ∧ c ≠ 63 ∧ isUnsafeUrlByte c = false)
    (hparams : ∀ c ∈ params, c ≠ 35 ∧ c ≠ 63 ∧ isUnsafeUrlByte c = false)
    (hq : ∀ c ∈ query, c ≠ 35 ∧ isUnsafeUrlByte c = false) :
    (pyUrlparse (pyUrlunparse scheme netloc path params query [])).scheme = scheme := by
  by_cases hpe : params = []
  · subst hpe
    have h1 : pyUrlunparse scheme netloc path [] query [] =
        pyUrlunsplit scheme netloc path query [] := by
      simp only [pyUrlunparse]
      rw [if_neg (by simp)]
    rw [pyUrlparse_scheme_eq, h1,
      pyUrlsplit_unsplit scheme netloc path query hsch hnl_ne hnl hpath_head hpath hq]
  · have hh : path.head? = some 47 := hpar_head hpe
    have h1 : pyUrlunparse scheme netloc path params query [] =
        pyUrlunsplit scheme netloc (path ++ 59 :: params) query [] := by
      simp only [pyUrlunparse]
      rw [if_pos hpe]
    rw [pyUrlparse_scheme_eq, h1,
      pyUrlsplit_unsplit scheme netloc (path ++ 59 :: params) query hsch hnl_ne hnl
        (Or.inr (by
          match path, hh with
          | c :: t, h =>
            have hc : 47 = c := by simpa using h.symm
            subst hc
            rfl))
        (by
          intro c hc
          simp only [List.mem_append, List.mem_cons] at hc
          rcases hc with h | h | h
          · exact hpath c h
          · subst h
            exact ⟨by decide, by decide, by decide⟩
          · exact hparams c h)
        hq]

/-! ## Claim C2: idempotence of `_normalize_url` -/

/-- Claim C2 (amended).  The claim that `_normalize_url` is idempotent on every URL
string is false as stated (see `c2_normalize_idempotent_cex`); it holds for every
URL of Unicode scalar values whose parse yields a non-empty scheme and a non-empty
netloc and whose percent-normalized path carries no semicolon in its last path
segment: for such `u`, `normalizeUrl (normalizeUrl u) = normalizeUrl u`. -/
theorem c2_normalize_idempotent_amended (u : List Nat) (hv : validStr u)
    (hs : (pyUrlparse u).scheme ≠ [])
    (hn : (pyUrlparse u).netloc ≠ [])
    (hseg : (59 : Nat) ∉ lastPathSegment (pyQuote pathSafe (pyUnquote (pyUrlparse u).path))) :
    normalizeUrl (normalizeUrl u) = normalizeUrl u := by
  have hsP : (pyUrlsplit u).scheme ≠ [] := by
    rw [← pyUrlparse_scheme_eq]
    exact hs
  have hnP : (pyUrlsplit u).netloc ≠ [] := by
    rw [← pyUrlparse_netloc_eq]
    exact hn
  have hschOk : SchemeOk (pyUrlsplit u).scheme := pyUrlsplit_scheme_ok u hsP
  have hsch_low : pyLower (pyUrlparse u).scheme = (pyUrlsplit u).scheme := by
    rw [pyUrlparse_scheme_eq]
    exact hschOk.2.2.2
  have hvpath : validStr (pyUrlparse u).path := by
    intro c hc
    exact hv c (urlStrip_subset u c
      (pyUrlsplit_path_props u c (pyUrlparse_path_subset u c hc)).2.2.2)
  have hvq : validStr (pyUrlparse u).query := by
    intro c hc
    rw [pyUrlparse_query_eq] at hc
    exact hv c (urlStrip_subset u c (pyUrlsplit_query_props u c hc).2.2)
  have hs0v : validStr (pyUnquote (pyUrlparse u).path) := pyUnquote_valid _ hvpath
  have hq0v : validStr (pyUnquote (pyUrlparse u).query) := pyUnquote_valid _ hvq
  have hnl_ne : pyLower (pyUrlparse u).netloc ≠ [] := by
    rw [pyUrlparse_netloc_eq]
    intro he
    exact hnP (by simpa [pyLower] using he)
  have hnl_props : ∀ c ∈ pyLower (pyUrlparse u).netloc,
      isNetlocEnd c = false ∧ isUnsafeUrlByte c = false := by
    intro c hc
    rw [pyUrlparse_netloc_eq] at hc
    simp only [pyLower, List.mem_map] at hc
    obtain ⟨c0, hc0, hlc⟩ := hc
    have h0 := pyUrlsplit_netloc_props u c0 hc0
    rw [← hlc]
    exact ⟨asciiLower_not_netlocEnd c0 h0.1, asciiLower_clean c0 h0.2.1⟩
  have hnl_low : pyLower (pyLower (pyUrlparse u).netloc) = pyLower (pyUrlparse u).netloc :=
    pyLower_idem _
  have hQprops : ∀ c ∈ pyQuote querySafe (pyUnquote (pyUrlparse u).query),
      c ≠ 35 ∧ isUnsafeUrlByte c = false := pyQuote_querySafe_props _ hq0v
  have hQfix : pyQuote querySafe (pyUnquote (pyQuote querySafe (pyUnquote (pyUrlparse u).query)))
      = pyQuote querySafe (pyUnquote (pyUrlparse u).query) := by
    rw [pyUnquote_pyQuote querySafe (by decide) _ hq0v]
  have hparprops : ∀ c ∈ (pyUrlparse u).params,
      c ≠ 35 ∧ c ≠ 63 ∧ isUnsafeUrlByte c = false := by
    intro c hc
    have h0 := pyUrlsplit_path_props u c (pyUrlparse_params_subset u c hc)
    exact ⟨h0.1, h0.2.1, h0.2.2.1⟩
  have hparsch : (pyUrlparse u).params ≠ [] → pyLower (pyUrlparse u).scheme ∈ usesParams := by
    intro hne
    rw [hsch_low]
    exact pyUrlparse_params_scheme u hne
  have hschOk2 : SchemeOk (pyLower (pyUrlparse u).scheme) := by
    rw [hsch_low]
    exact hschOk
  have hpath0_head : pyQuote pathSafe (pyUnquote (pyUrlparse u).path) = [] ∨
      (pyQuote pathSafe (pyUnquote (pyUrlparse u).path)).head? = some 47 := by
    rcases pyUrlparse_path_head u hnP with hnil | hhead
    · left
      rw [hnil]
      rfl
    · right
      cases hPP : (pyUrlparse u).path with
      | nil =>
        rw [hPP] at hhead
        simp at hhead
      | cons c t =>
        rw [hPP] at hhead
        have hc : c = 47 := by simpa using hhead
        subst hc
        rw [pyUnquote_cons_lit 47 (by decide) t]
        rw [pyQuote_cons_safe pathSafe 47 (by decide) (pyUnquote t)]
        rfl
  by_cases hp0 : pyQuote pathSafe (pyUnquote (pyUrlparse u).path) = []
  · have hPeq : (if pyQuote pathSafe (pyUnquote (pyUrlparse u).path) = [] then [47]
        else pyQuote pathSafe (pyUnquote (pyUrlparse u).path)) = [47] := if_pos hp0
    have hP_head : (if pyQuote pathSafe (pyUnquote (pyUrlparse u).path) = [] then [47]
        else pyQuote pathSafe (pyUnquote (pyUrlparse u).path)).head? = some 47 := by
      rw [hPeq]
      rfl
    have hPprops : ∀ c ∈ (if pyQuote pathSafe (pyUnquote (pyUrlparse u).path) = [] then [47]
        else pyQuote pathSafe (pyUnquote (pyUrlparse u).path)),
        c ≠ 35 ∧ c ≠ 63 ∧ isUnsafeUrlByte c = false := by
      rw [hPeq]
      intro c hc
      have hc47 : c = 47 := by simpa using hc
      subst hc47
      exact ⟨by decide, by decide, by decide⟩
    have hsegP : (59 : Nat) ∉ lastPathSegment
        (if pyQuote pathSafe (pyUnquote (pyUrlparse u).path) = [] then [47]
         else pyQuote pathSafe (pyUnquote (pyUrlparse u).path)) := by
      rw [hPeq]
      decide
    have hPfix : pyQuote pathSafe (pyUnquote
        (if pyQuote pathSafe (pyUnquote (pyUrlparse u).path) = [] then [47]
         else pyQuote pathSafe (pyUnquote (pyUrlparse u).path))) =
        (if pyQuote pathSafe (pyUnquote (pyUrlparse u).path) = [] then [47]
         else pyQuote pathSafe (pyUnquote (pyUrlparse u).path)) := by
      rw [hPeq]
      decide
    rw [normalizeUrl_eq u]
    exact normalizeUrl_fix (pyLower (pyUrlparse u).scheme) (pyLower (pyUrlparse u).netloc)
      _ (pyUrlparse u).params _ hschOk2 hnl_ne hnl_props hP_head hPprops hparprops
      (pyUrlparse_params_no47 u) hparsch hsegP hQprops hnl_low hPfix hQfix
  · have hhead0 : (pyQuote pathSafe (pyUnquote (pyUrlparse u).path)).head? = some 47 :=
      hpath0_head.resolve_left hp0
    have hPeq : (if pyQuote pathSafe (pyUnquote (pyUrlparse u).path) = [] then [47]
        else pyQuote pathSafe (pyUnquote (pyUrlparse u).path)) =
        pyQuote pathSafe (pyUnquote (pyUrlparse u).path) := if_neg hp0
    have hP_head : (if pyQuote pathSafe (pyUnquote (pyUrlparse u).path) = [] then [47]
        else pyQuote pathSafe (pyUnquote (pyUrlparse u).path)).head? = some 47 := by
      rw [hPeq]
      exact hhead0
    have hPprops : ∀ c ∈ (if pyQuote pathSafe (pyUnquote (pyUrlparse u).path) = [] then [47]
        else pyQuote pathSafe (pyUnquote (pyUrlparse u).path)),
        c ≠ 35 ∧ c ≠ 63 ∧ isUnsafeUrlByte c = false := by
      rw [hPeq]
      exact pyQuote_pathSafe_props _ hs0v
    have hsegP : (59 : Nat) ∉ lastPathSegment
        (if pyQuote pathSafe (pyUnquote (pyUrlparse u).path) = [] then [47]
         else pyQuote pathSafe (pyUnquote (pyUrlparse u).path)) := by
      rw [hPeq]
      exact hseg
    have hPfix : pyQuote pathSafe (pyUnquote
        (if pyQuote pathSafe (pyUnquote (pyUrlparse u).path) = [] then [47]
         else pyQuote pathSafe (pyUnquote (pyUrlparse u).path))) =
        (if pyQuote pathSafe (pyUnquote (pyUrlparse u).path) = [] then [47]
         else pyQuote pathSafe (pyUnquote (pyUrlparse u).path)) := by
      rw [hPeq, pyUnquote_pyQuote pathSafe (by decide) _ hs0v]
    rw [normalizeUrl_eq u]
    exact normalizeUrl_fix (pyLower (pyUrlparse u).scheme) (pyLower (pyUrlparse u).netloc)
      _ (pyUrlparse u).params _ hschOk2 hnl_ne hnl_props hP_head hPprops hparprops
      (pyUrlparse_params_no47 u) hparsch hsegP hQprops hnl_low hPfix hQfix

/-- Claim C2 counterexample.  `_normalize_url` is not idempotent on every URL string:
for the relative URL `a%3a` normalization materializes a scheme and the second pass
adds a `/` path; for `http://h/a%3b` the unquoted `;` makes the second pass split off
and drop an empty params component; for `http:////H` the second pass absorbs the
leading `//` path into an (empty-host) netloc position so the host case changes. -/
theorem c2_normalize_idempotent_cex :
    normalizeUrl (normalizeUrl [97, 37, 51, 97]) ≠ normalizeUrl [97, 37, 51, 97] ∧
    normalizeUrl (normalizeUrl [104, 116, 116, 112, 58, 47, 47, 104, 47, 97, 37, 51, 98]) ≠
      normalizeUrl [104, 116, 116, 112, 58, 47, 47, 104, 47, 97, 37, 51, 98] ∧
    normalizeUrl (normalizeUrl [104, 116, 116, 112, 58, 47, 47, 47, 47, 72]) ≠
      normalizeUrl [104, 116, 116, 112, 58, 47, 47, 47, 47, 72] :=
  ⟨by decide, by decide, by decide⟩

/-- Witness for C2 (amended): the URL `http://h/a` satisfies every hypothesis and is
a fixed point of double normalization. -/
theorem c2_normalize_idempotent_amended_witness :
    validStr [104, 116, 116, 112, 58, 47, 47, 104, 47, 97] ∧
    (pyUrlparse [104, 116, 116, 112, 58, 47, 47, 104, 47, 97]).scheme ≠ [] ∧
    (pyUrlparse [104, 116, 116, 112, 58, 47, 47, 104, 47, 97]).netloc ≠ [] ∧
    (59 : Nat) ∉ lastPathSegment (pyQuote pathSafe
      (pyUnquote (pyUrlparse [104, 116, 116, 112, 58, 47, 47, 104, 47, 97]).path)) ∧
    normalizeUrl (normalizeUrl [104, 116, 116, 112, 58, 47, 47, 104, 47, 97]) =
      normalizeUrl [104, 116, 116, 112, 58, 47, 47, 104, 47, 97] :=
  ⟨by decide, by decide, by decide, by decide,
   c2_normalize_idempotent_amended [104, 116, 116, 112, 58, 47, 47, 104, 47, 97]
     (by decide) (by decide) (by decide) (by decide)⟩

/-! ## Claim C10: `_full_normalize` rewrites the scheme in both directions -/

/-- Claim C10.  `_full_normalize` forces the crawler scheme onto every same-host URL:
whenever the configured scheme is a well-formed scheme name, the allowed domain is
non-empty and the normalized URL's host equals the allowed domain, the scheme of the
fully-normalized URL parses back as exactly the configured scheme — whether the
original scheme was equal to it (no rewrite needed) or different in either direction
(http to https and https to http alike). -/
theorem c10_fullNormalize_scheme_rewrite (cfg : CrawlerCfg) (u : List Nat)
    (hcs : SchemeOk cfg.scheme)
    (hdom : cfg.allowedDomain ≠ [])
    (hmatch : (pyUrlparse (normalizeUrl u)).netloc = cfg.allowedDomain) :
    (pyUrlparse (fullNormalize cfg u)).scheme = cfg.scheme := by
  have hn2 : (pyUrlparse (normalizeUrl u)).netloc ≠ [] := by
    rw [hmatch]
    exact hdom
  have hn2s : (pyUrlsplit (normalizeUrl u)).netloc ≠ [] := by
    rw [← pyUrlparse_netloc_eq]
    exact hn2
  by_cases hcond : (pyUrlparse (normalizeUrl u)).scheme ≠ cfg.scheme ∧
      (pyUrlparse (normalizeUrl u)).netloc = cfg.allowedDomain
  · have hres : fullNormalize cfg u = pyUrlunparse cfg.scheme
        (pyUrlparse (normalizeUrl u)).netloc (pyUrlparse (normalizeUrl u)).path
        (pyUrlparse (normalizeUrl u)).params (pyUrlparse (normalizeUrl u)).query [] := by
      simp only [fullNormalize]
      rw [if_pos hcond]
    rw [hres]
    apply pyUrlparse_unparse_scheme
    · exact hcs
    · exact hn2
    · intro c hc
      rw [pyUrlparse_netloc_eq] at hc
      have h0 := pyUrlsplit_netloc_props _ c hc
      exact ⟨h0.1, h0.2.1⟩
    · exact pyUrlparse_path_head _ hn2s
    · exact fun hp => pyUrlparse_params_path_head _ hn2s hp
    · intro c hc
      have h0 := pyUrlsplit_path_props _ c (pyUrlparse_path_subset _ c hc)
      exact ⟨h0.1, h0.2.1, h0.2.2.1⟩
    · intro c hc
      have h0 := pyUrlsplit_path_props _ c (pyUrlparse_params_subset _ c hc)
      exact ⟨h0.1, h0.2.1, h0.2.2.1⟩
    · intro c hc
      rw [pyUrlparse_query_eq] at hc
      have h0 := pyUrlsplit_query_props _ c hc
      exact ⟨h0.1, h0.2.1⟩
  · have hres : fullNormalize cfg u = normalizeUrl u := by
      simp only [fullNormalize]
      rw [if_neg hcond]
    rw [hres]
    by_contra hne
    exact hcond ⟨hne, hmatch⟩

/-- Witness for C10: with start scheme `https` and host `h`, the same-host URL
`http://h/a` is promoted to scheme `https`; with start scheme `http`, the URL
`https://h/a` is downgraded to scheme `http`. -/
theorem c10_fullNormalize_scheme_rewrite_witness :
    (SchemeOk [104, 116, 116, 112, 115] ∧ ([104] : List Nat) ≠ [] ∧
      (pyUrlparse (normalizeUrl [104, 116, 116, 112, 58, 47, 47, 104, 47, 97])).netloc =
        [104] ∧
      (pyUrlparse (fullNormalize ⟨[104, 116, 116, 112, 115], [104]⟩
        [104, 116, 116, 112, 58, 47, 47, 104, 47, 97])).scheme = [104, 116, 116, 112, 115]) ∧
    (SchemeOk [104, 116, 116, 112] ∧ ([104] : List Nat) ≠ [] ∧
      (pyUrlparse (normalizeUrl [104, 116, 116, 112, 115, 58, 47, 47, 104, 47, 97])).netloc =
        [104] ∧
      (pyUrlparse (fullNormalize ⟨[104, 116, 116, 112], [104]⟩
        [104, 116, 116, 112, 115, 58, 47, 47, 104, 47, 97])).scheme = [104, 116, 116, 112]) :=
  ⟨⟨by decide, by decide, by decide,
    c10_fullNormalize_scheme_rewrite ⟨[104, 116, 116, 112, 115], [104]⟩
      [104, 116, 116, 112, 58, 47, 47, 104, 47, 97] (by decide) (by decide) (by decide)⟩,
   ⟨by decide, by decide, by decide,
    c10_fullNormalize_scheme_rewrite ⟨[104, 116, 116, 112], [104]⟩
      [104, 116, 116, 112, 115, 58, 47, 47, 104, 47, 97] (by decide) (by decide) (by decide)⟩⟩

/-! ## Claim C1: redirected fetches record the first redirect status -/

/-- Claim C1.  When the response carries a non-empty redirect history,
`_fetch_with_httpx` records `http_status_code` as the status code of the first
history entry (the first redirect response of the chain) and records the terminal
URL of the chain as the redirect target. -/
theorem c1_redirect_records_first_status (resp : HttpxResponse) (h : HistoryEntry)
    (rest : List HistoryEntry) (hh : resp.history = h :: rest) :
    (recordResponse resp).http_status_code = h.status_code ∧
    (recordResponse resp).redirect_url = resp.url := by
  have hr : recordResponse resp =
      { http_status_code := h.status_code
        redirect_url := resp.url
        content_type := resp.content_type
        last_modified := resp.last_modified } := by
    unfold recordResponse
    rw [hh]
  rw [hr]
  exact ⟨rfl, rfl⟩

/-- Witness for C1: a chain `301 → 200` terminating at the URL `f` records
status 301 and redirect target `f`. -/
theorem c1_redirect_records_first_status_witness :
    (HttpxResponse.mk [⟨301⟩] 200 [102] [] []).history = [⟨301⟩] ∧
    (recordResponse ⟨[⟨301⟩], 200, [102], [], []⟩).http_status_code = 301 ∧
    (recordResponse ⟨[⟨301⟩], 200, [102], [], []⟩).redirect_url = [102] :=
  ⟨rfl, c1_redirect_records_first_status ⟨[⟨301⟩], 200, [102], [], []⟩ ⟨301⟩ [] rfl⟩

/-! ## Claim C3: skip-extension URLs -/

/-- Claim C3 (amended).  On the enqueue path a URL whose normalized path ends in a
skip extension is indeed never enqueued and never counted: `_enqueue` returns
`False` leaving the scheduler state unchanged, and a link within the depth bound
leaves the state unchanged as well.  The original claim's `regardless of the
depth at which it is found` is false: beyond the depth bound the `MAX_DEPTH`
phantom path creates a result and increments the discovered counter without any
extension check (see `c3_skip_extension_cex`). -/
theorem c3_skip_extension_amended (cfg : CrawlerCfg) (maxDepth : Nat) (st : SchedState)
    (curUrl linkUrl parent : List Nat) (curDepth depth : Nat)
    (hskip : hasSkipExtension (fullNormalize cfg linkUrl) = true) :
    enqueue cfg st linkUrl depth parent = (st, false) ∧
    (curDepth + 1 ≤ maxDepth → processLink cfg maxDepth st curUrl curDepth linkUrl = st) := by
  have henq : ∀ (d : Nat) (p : List Nat), enqueue cfg st linkUrl d p = (st, false) := by
    intro d p
    simp only [enqueue]
    by_cases hseen : fullNormalize cfg linkUrl ∈ st.seen
    · rw [if_pos hseen]
    · rw [if_neg hseen, if_pos hskip]
  refine ⟨henq depth parent, ?_⟩
  intro hdep
  simp only [processLink]
  rw [if_pos hdep, henq]

/-- Claim C3 counterexample.  With `max_depth = 0`, the same-host link
`http://h/a.jpg` has a skip extension, yet processing it from the start page
creates a `MAX_DEPTH` result and increments the discovered counter: the
phantom path of `_crawl_url` performs no extension check. -/
theorem c3_skip_extension_cex :
    hasSkipExtension (fullNormalize ⟨[104, 116, 116, 112], [104]⟩
      [104, 116, 116, 112, 58, 47, 47, 104, 47, 97, 46, 106, 112, 103]) = true ∧
    (processLink ⟨[104, 116, 116, 112], [104]⟩ 0 ⟨[], [], [], 0⟩
      [104, 116, 116, 112, 58, 47, 47, 104, 47] 0
      [104, 116, 116, 112, 58, 47, 47, 104, 47, 97, 46, 106, 112, 103]).totalDiscovered = 1 ∧
    (processLink ⟨[104, 116, 116, 112], [104]⟩ 0 ⟨[], [], [], 0⟩
      [104, 116, 116, 112, 58, 47, 47, 104, 47] 0
      [104, 116, 116, 112, 58, 47, 47, 104, 47, 97, 46, 106, 112, 103]).results ≠ [] :=
  ⟨by decide, by decide, by decide⟩

/-- Witness for C3 (amended): enqueueing the skip-extension link
`http://h/a.jpg` at depth 1 with bound 1 changes nothing. -/
theorem c3_skip_extension_amended_witness :
    hasSkipExtension (fullNormalize ⟨[104, 116, 116, 112], [104]⟩
      [104, 116, 116, 112, 58, 47, 47, 104, 47, 97, 46, 106, 112, 103]) = true ∧
    (enqueue ⟨[104, 116, 116, 112], [104]⟩ ⟨[], [], [], 0⟩
        [104, 116, 116, 112, 58, 47, 47, 104, 47, 97, 46, 106, 112, 103] 1
        [104, 116, 116, 112, 58, 47, 47, 104, 47] = (⟨[], [], [], 0⟩, false) ∧
      (0 + 1 ≤ 1 → processLink ⟨[104, 116, 116, 112], [104]⟩ 1 ⟨[], [], [], 0⟩
        [104, 116, 116, 112, 58, 47, 47, 104, 47] 0
        [104, 116, 116, 112, 58, 47, 47, 104, 47, 97, 46, 106, 112, 103] = ⟨[], [], [], 0⟩)) :=
  ⟨by decide,
   c3_skip_extension_amended ⟨[104, 116, 116, 112], [104]⟩ 1 ⟨[], [], [], 0⟩
     [104, 116, 116, 112, 58, 47, 47, 104, 47]
     [104, 116, 116, 112, 58, 47, 47, 104, 47, 97, 46, 106, 112, 103]
     [104, 116, 116, 112, 58, 47, 47, 104, 47] 0 1 (by decide)⟩

/-! ## Claim C8: sitemap branches abort on any non-200 status -/

/-- Claim C8 (amended).  `_load_sitemap_recursive` aborts a branch silently on a
transport error, on an XML parse failure, and on any HTTP status other than
exactly 200 — not merely on non-2xx statuses: a 201 response aborts too (see
`c8_load_non200_cex`).  A 200 response with a plain document adds its url
entries to the accumulated set. -/
theorem c8_load_abort_amended (web : SitemapWeb) (url : List Nat)
    (urls : List (List Nat)) (depth : Nat) :
    (assocLookup url web = none → loadSitemapRec web url urls depth = urls) ∧
    (∀ status body, assocLookup url web = some (status, body) → status ≠ 200 →
      loadSitemapRec web url urls depth = urls) ∧
    (∀ status, assocLookup url web = some (status, .parseFail) →
      loadSitemapRec web url urls depth = urls) ∧
    (∀ entries, assocLookup url web = some (200, .doc [] entries) → depth ≤ 3 →
      loadSitemapRec web url urls depth = entries.foldl addUrl urls) := by
  refine ⟨?_, ?_, ?_, ?_⟩
  · intro hlook
    unfold loadSitemapRec
    by_cases hd : depth > 3
    · rw [if_pos hd]
    · rw [if_neg hd, hlook]
  · intro status body hlook hstat
    unfold loadSitemapRec
    by_cases hd : depth > 3
    · rw [if_pos hd]
    · rw [if_neg hd, hlook]
      dsimp only
      rw [if_pos hstat]
  · intro status hlook
    unfold loadSitemapRec
    by_cases hd : depth > 3
    · rw [if_pos hd]
    · rw [if_neg hd, hlook]
      dsimp only
      by_cases hs : status = 200
      · rw [if_neg (by simp [hs])]
      · rw [if_pos hs]
  · intro entries hlook hdep
    unfold loadSitemapRec
    rw [if_neg (by omega), hlook]
    dsimp only
    rw [if_neg (by simp), if_neg (by simp)]

/-- Claim C8 counterexample.  A 201 response whose body is a perfectly parseable
sitemap with one url entry is aborted (nothing accumulated), while the identical
body under status 200 yields the entry: the code tests `status_code != 200`,
not the 2xx class. -/
theorem c8_load_non200_cex :
    loadSitemapRec [([115], (201, .doc [] [[117]]))] [115] [] 0 = [] ∧
    loadSitemapRec [([115], (200, .doc [] [[117]]))] [115] [] 0 = [[117]] := by
  constructor
  · unfold loadSitemapRec
    simp [assocLookup]
  · unfold loadSitemapRec
    simp [assocLookup, addUrl]

/-- Witness for C8 (amended): a one-document web under status 404 aborts with
the accumulated set unchanged. -/
theorem c8_load_abort_amended_witness :
    assocLookup [115] [([115], (404, SitemapDocBody.doc [] [[117]]))] =
      some (404, SitemapDocBody.doc [] [[117]]) ∧
    loadSitemapRec [([115], (404, SitemapDocBody.doc [] [[117]]))] [115] [[118]] 0 = [[118]] :=
  ⟨rfl,
   (c8_load_abort_amended [([115], (404, SitemapDocBody.doc [] [[117]]))] [115]
     [[118]] 0).2.1 404 (SitemapDocBody.doc [] [[117]]) rfl (by decide)⟩

/-! ## Claim C9: the TIMEOUT status is never assigned -/

/-- Claim C9.  No crawl result ever receives status `TIMEOUT`: every way the
processing of a URL can end — robots skip, cancellation before the fetch,
exhausted retries (including request timeouts), redirect, HTTP error or
success, and the phantom `MAX_DEPTH` results — assigns a different status, so
`TIMEOUT` is unreachable. -/
theorem c9_no_timeout_status (cfg : CrawlerCfg) (events : List CrawlEvent) :
    PageStatus.TIMEOUT ∉ runStatuses cfg events := by
  intro hmem
  simp only [runStatuses, List.mem_map] at hmem
  obtain ⟨e, _, he⟩ := hmem
  cases e with
  | maxDepthPhantom => exact PageStatus.noConfusion he
  | processUrl o =>
    cases o with
    | robotsSkipped => exact PageStatus.noConfusion he
    | cancelledBeforeFetch => exact PageStatus.noConfusion he
    | transportError => exact PageStatus.noConfusion he
    | errorAfterStatus s => exact PageStatus.noConfusion he
    | fetched r s =>
      simp only [eventStatus, finalStatus] at he
      split at he
      · split at he
        · exact PageStatus.noConfusion he
        · exact PageStatus.noConfusion he
      · split at he
        · exact PageStatus.noConfusion he
        · exact PageStatus.noConfusion he

/-! ## Claim C4: counter conservation -/

theorem applyEvent_conservation (st : CrawlStats) (e : CrawlEvent)
    (hs : ∀ r s, e = .processUrl (.fetched r s) → 200 ≤ s ∧ s < 600)
    (hna : ∀ s, e ≠ .processUrl (.errorAfterStatus s)) :
    (applyEvent st e).total_crawled + st.total_2xx + st.total_3xx + st.total_4xx +
        st.total_5xx =
      st.total_crawled + (applyEvent st e).total_2xx + (applyEvent st e).total_3xx +
        (applyEvent st e).total_4xx + (applyEvent st e).total_5xx +
        (if e = .processUrl .transportError then 1 else 0) := by
  cases e with
  | maxDepthPhantom => simp [applyEvent]
  | processUrl o =>
    cases o with
    | robotsSkipped => simp [applyEvent]
    | cancelledBeforeFetch => simp [applyEvent]
    | transportError =>
      simp [applyEvent]
      omega
    | errorAfterStatus s => exact absurd rfl (hna s)
    | fetched r s =>
      have hrange := hs r s rfl
      have hif : (CrawlEvent.processUrl (.fetched r s) = .processUrl .transportError) = False := by
        simp
      simp only [applyEvent, hif, if_false]
      by_cases hred : r ≠ []
      · rw [if_pos hred]
        dsimp only
        omega
      · rw [if_neg hred]
        rcases (show s / 100 = 2 ∨ s / 100 = 3 ∨ s / 100 = 4 ∨ s / 100 = 5 by omega)
          with h | h | h | h <;>
          simp only [countHttpStatus, h] <;> norm_num <;> omega

theorem runStats_conservation_aux : ∀ (es : List CrawlEvent) (st : CrawlStats),
    (∀ r s, CrawlEvent.processUrl (.fetched r s) ∈ es → 200 ≤ s ∧ s < 600) →
    (∀ s, CrawlEvent.processUrl (.errorAfterStatus s) ∉ es) →
    (es.foldl applyEvent st).total_crawled + st.total_2xx + st.total_3xx + st.total_4xx +
        st.total_5xx =
      st.total_crawled + (es.foldl applyEvent st).total_2xx +
        (es.foldl applyEvent st).total_3xx + (es.foldl applyEvent st).total_4xx +
        (es.foldl applyEvent st).total_5xx +
        es.countP (fun e => e = .processUrl .transportError) := by
  intro es
  induction es with
  | nil =>
    intro st _ _
    simp
  | cons e rest ih =>
    intro st h1 h2
    have hstep := applyEvent_conservation st e (fun r s he => h1 r s (by rw [he]; simp))
      (fun s he => h2 s (by rw [← he]; simp))
    have hrest := ih (applyEvent st e) (fun r s hm => h1 r s (by simp [hm]))
      (fun s hm => h2 s (by simp [hm]))
    simp only [List.foldl_cons]
    have htf : (e :: rest).countP (fun e => e = .processUrl .transportError) =
        rest.countP (fun e => e = .processUrl .transportError) +
          (if e = .processUrl .transportError then 1 else 0) := by
      simp [List.countP_cons]
    rw [htf]
    omega

theorem isTransportFailure_eq_transportError (cfg : CrawlerCfg) (e : CrawlEvent)
    (hs : ∀ r s, e = .processUrl (.fetched r s) → 200 ≤ s ∧ s < 600)
    (hna : ∀ s, e ≠ .processUrl (.errorAfterStatus s)) :
    isTransportFailure cfg e = decide (e = .processUrl .transportError) := by
  cases e with
  | maxDepthPhantom => rfl
  | processUrl o =>
    cases o with
    | robotsSkipped => rfl
    | cancelledBeforeFetch => rfl
    | transportError => rfl
    | errorAfterStatus s => exact absurd rfl (hna s)
    | fetched r s =>
      have hrange := hs r s rfl
      have hs0 : (s == 0) = false := by
        simp only [beq_eq_false_iff_ne, ne_eq]
        omega
      simp only [isTransportFailure, finalHttpStatus, hs0, Bool.and_false]
      simp

theorem transportFailures_eq_transport (cfg : CrawlerCfg) : ∀ (es : List CrawlEvent),
    (∀ r s, CrawlEvent.processUrl (.fetched r s) ∈ es → 200 ≤ s ∧ s < 600) →
    (∀ s, CrawlEvent.processUrl (.errorAfterStatus s) ∉ es) →
    transportFailures cfg es = es.countP (fun e => e = .processUrl .transportError) := by
  intro es
  induction es with
  | nil =>
    intro _ _
    rfl
  | cons e rest ih =>
    intro h1 h2
    have he := isTransportFailure_eq_transportError cfg e
      (fun r s hh => h1 r s (by rw [← hh]; simp))
      (fun s hh => h2 s (by rw [← hh]; simp))
    have hr := ih (fun r s hm => h1 r s (by simp [hm])) (fun s hm => h2 s (by simp [hm]))
    simp only [transportFailures] at hr ⊢
    rw [List.countP_cons, List.countP_cons, hr, he]

/-- Claim C4 (amended).  The unconditional conservation equation of the claim is
false (see `c4_counter_conservation_cex`): a fetched status outside the four
categories increments `total_crawled` with no bucket, and an exhausted retry
loop whose failing attempt had already recorded a status yields an `ERROR`
result with a non-zero `http_status_code` that no bucket and no
ERROR-with-status-0 count covers.  Over traces whose fetched statuses lie in
200..599 and in which no retry loop exhausts after a recorded status, the
crawled counter equals the sum of the four category counters plus the number of
results with status `ERROR` and `http_status_code` 0; robots skips, `MAX_DEPTH`
phantoms and cancelled (still `PENDING`) tasks contribute to neither side. -/
theorem c4_counter_conservation_amended (cfg : CrawlerCfg) (events : List CrawlEvent)
    (hstatus : ∀ r s, CrawlEvent.processUrl (.fetched r s) ∈ events → 200 ≤ s ∧ s < 600)
    (hnoafter : ∀ s, CrawlEvent.processUrl (.errorAfterStatus s) ∉ events) :
    (runStats events).total_crawled =
      (runStats events).total_2xx + (runStats events).total_3xx +
        (runStats events).total_4xx + (runStats events).total_5xx +
        transportFailures cfg events := by
  have h := runStats_conservation_aux events {} hstatus hnoafter
  have ht := transportFailures_eq_transport cfg events hstatus hnoafter
  simp only [runStats]
  rw [ht]
  dsimp only at h
  omega

/-- Claim C4 counterexample.  Two reachable traces violate the unconditional
conservation equation: a terminal status 999 (no redirect) gives an `ERROR`
result counted in `total_crawled` but in no category bucket and, having a
non-zero recorded status, in no ERROR-with-status-0 count; and a retry loop
exhausted after the fetch recorded status 200 (an exception during link
extraction, such as `urljoin` on a malformed IPv6 href) gives an `ERROR` result
with `http_status_code` 200, again counted in `total_crawled` only. -/
theorem c4_counter_conservation_cex :
    ((runStats [.processUrl (.fetched [] 999)]).total_crawled ≠
      (runStats [.processUrl (.fetched [] 999)]).total_2xx +
        (runStats [.processUrl (.fetched [] 999)]).total_3xx +
        (runStats [.processUrl (.fetched [] 999)]).total_4xx +
        (runStats [.processUrl (.fetched [] 999)]).total_5xx +
        transportFailures ⟨[104, 116, 116, 112], [104]⟩ [.processUrl (.fetched [] 999)]) ∧
    eventStatus ⟨[104, 116, 116, 112], [104]⟩ (.processUrl (.fetched [] 999)) =
      PageStatus.ERROR ∧
    finalHttpStatus (.fetched [] 999) = 999 ∧
    ((runStats [.processUrl (.errorAfterStatus 200)]).total_crawled ≠
      (runStats [.processUrl (.errorAfterStatus 200)]).total_2xx +
        (runStats [.processUrl (.errorAfterStatus 200)]).total_3xx +
        (runStats [.processUrl (.errorAfterStatus 200)]).total_4xx +
        (runStats [.processUrl (.errorAfterStatus 200)]).total_5xx +
        transportFailures ⟨[104, 116, 116, 112], [104]⟩
          [.processUrl (.errorAfterStatus 200)]) ∧
    eventStatus ⟨[104, 116, 116, 112], [104]⟩ (.processUrl (.errorAfterStatus 200)) =
      PageStatus.ERROR ∧
    finalHttpStatus (.errorAfterStatus 200) = 200 :=
  ⟨by decide, by decide, by decide, by decide, by decide, by decide⟩

/-- Witness for C4 (amended): a trace with one 200 fetch, one transport
failure, one redirect, one 404 fetch, one robots skip and one phantom
satisfies both hypotheses and balances `crawled = 2 + 1 + 1 + 0 + 1 = 5`. -/
theorem c4_counter_conservation_amended_witness :
    (∀ r s, CrawlEvent.processUrl (.fetched r s) ∈
        ([.processUrl (.fetched [] 200), .processUrl .transportError,
          .processUrl (.fetched [104] 301), .maxDepthPhantom,
          .processUrl .robotsSkipped, .processUrl (.fetched [] 404)] : List CrawlEvent) →
      200 ≤ s ∧ s < 600) ∧
    (∀ s, CrawlEvent.processUrl (.errorAfterStatus s) ∉
        ([.processUrl (.fetched [] 200), .processUrl .transportError,
          .processUrl (.fetched [104] 301), .maxDepthPhantom,
          .processUrl .robotsSkipped, .processUrl (.fetched [] 404)] : List CrawlEvent)) ∧
    (runStats [.processUrl (.fetched [] 200), .processUrl .transportError,
        .processUrl (.fetched [104] 301), .maxDepthPhantom,
        .processUrl .robotsSkipped, .processUrl (.fetched [] 404)]).total_crawled =
      (runStats [.processUrl (.fetched [] 200), .processUrl .transportError,
          .processUrl (.fetched [104] 301), .maxDepthPhantom,
          .processUrl .robotsSkipped, .processUrl (.fetched [] 404)]).total_2xx +
        (runStats [.processUrl (.fetched [] 200), .processUrl .transportError,
            .processUrl (.fetched [104] 301), .maxDepthPhantom,
            .processUrl .robotsSkipped, .processUrl (.fetched [] 404)]).total_3xx +
        (runStats [.processUrl (.fetched [] 200), .processUrl .transportError,
            .processUrl (.fetched [104] 301), .maxDepthPhantom,
            .processUrl .robotsSkipped, .processUrl (.fetched [] 404)]).total_4xx +
        (runStats [.processUrl (.fetched [] 200), .processUrl .transportError,
            .processUrl (.fetched [104] 301), .maxDepthPhantom,
            .processUrl .robotsSkipped, .processUrl (.fetched [] 404)]).total_5xx +
        transportFailures ⟨[104, 116, 116, 112], [104]⟩
          [.processUrl (.fetched [] 200), .processUrl .transportError,
           .processUrl (.fetched [104] 301), .maxDepthPhantom,
           .processUrl .robotsSkipped, .processUrl (.fetched [] 404)] :=
  ⟨fun r s hm => by
    simp only [List.mem_cons, List.not_mem_nil, or_false] at hm
    rcases hm with h | h | h | h | h | h <;> simp_all,
   fun s hm => by simp at hm,
   c4_counter_conservation_amended ⟨[104, 116, 116, 112], [104]⟩
     [.processUrl (.fetched [] 200), .processUrl .transportError,
      .processUrl (.fetched [104] 301), .maxDepthPhantom,
      .processUrl .robotsSkipped, .processUrl (.fetched [] 404)]
     (fun r s hm => by
       simp only [List.mem_cons, List.not_mem_nil, or_false] at hm
       rcases hm with h | h | h | h | h | h <;> simp_all)
     (fun s hm => by simp at hm)⟩

/-! ## Claim C5: referring-pages dedup and cap -/

theorem assocSet_mem (k : List Nat) (v : α) : ∀ (l : List (List Nat × α))
    (p : List Nat × α), p ∈ assocSet k v l → p = (k, v) ∨ p ∈ l := by
  intro l
  induction l with
  | nil =>
    intro p hp
    simp only [assocSet, List.mem_singleton] at hp
    exact Or.inl hp
  | cons q rest ih =>
    intro p hp
    obtain ⟨k2, v2⟩ := q
    simp only [assocSet] at hp
    by_cases hk : k2 = k
    · rw [if_pos hk] at hp
      rcases List.mem_cons.mp hp with h | h
      · exact Or.inl h
      · exact Or.inr (List.mem_cons.mpr (Or.inr h))
    · rw [if_neg hk] at hp
      rcases List.mem_cons.mp hp with h | h
      · exact Or.inr (by simp [h])
      · rcases ih p h with h2 | h2
        · exact Or.inl h2
        · exact Or.inr (by simp [h2])

theorem assocRemove_mem (k : List Nat) : ∀ (l : List (List Nat × α))
    (p : List Nat × α), p ∈ assocRemove k l → p ∈ l := by
  intro l
  induction l with
  | nil =>
    intro p hp
    simp [assocRemove] at hp
  | cons q rest ih =>
    intro p hp
    obtain ⟨k2, v2⟩ := q
    simp only [assocRemove] at hp
    by_cases hk : k2 = k
    · rw [if_pos hk] at hp
      exact List.mem_cons.mpr (Or.inr hp)
    · rw [if_neg hk] at hp
      rcases List.mem_cons.mp hp with h | h
      · simp [h]
      · exact List.mem_cons.mpr (Or.inr (ih p h))

theorem assocLookup_mem (k : List Nat) (v : α) : ∀ (l : List (List Nat × α)),
    assocLookup k l = some v → (k, v) ∈ l := by
  intro l
  induction l with
  | nil =>
    intro h
    simp [assocLookup] at h
  | cons q rest ih =>
    intro h
    obtain ⟨k2, v2⟩ := q
    simp only [assocLookup] at h
    by_cases hk : k2 = k
    · rw [if_pos hk] at h
      simp only [Option.some.injEq] at h
      subst hk
      subst h
      simp
    · rw [if_neg hk] at h
      exact List.mem_cons.mpr (Or.inr (ih h))

theorem RefListOk_append_entry (l : List RefEntry) (srcUrl txt : List Nat)
    (hok : RefListOk l) (hany : l.any (fun r => r.url = srcUrl) = false)
    (hlen : l.length < 50) : RefListOk (l ++ [⟨srcUrl, txt⟩]) := by
  constructor
  · rw [List.map_append, List.nodup_append]
    refine ⟨hok.1, by simp, ?_⟩
    intro x hx hx2
    simp only [List.map_cons, List.map_nil, List.mem_cons, List.not_mem_nil, or_false] at hx2
    subst hx2
    obtain ⟨r, hr, hru⟩ := List.mem_map.mp hx
    rw [List.any_eq_false] at hany
    have := hany r hr
    simp only [decide_eq_true_eq] at this
    exact this hru
  · rw [List.length_append]
    simp only [List.length_singleton]
    omega

theorem RefListOk_nil : RefListOk [] := ⟨List.nodup_nil, by simp⟩

theorem applyRefOp_invariant (cfg : CrawlerCfg) (st : RefState) (op : RefOp)
    (hinv : RefInvariant st) : RefInvariant (applyRefOp cfg st op) := by
  obtain ⟨hres, hpend⟩ := hinv
  cases op with
  | createPhantom u =>
    constructor
    · intro p hp
      simp only [applyRefOp, createMaxDepthResult] at hp
      rcases assocSet_mem _ _ _ p hp with h | h
      · rw [h]
        exact RefListOk_nil
      · exact hres p h
    · exact hpend
  | create u =>
    have hmoved : RefListOk ((assocLookup u st.pending).getD []) := by
      cases hl : assocLookup u st.pending with
      | none => exact RefListOk_nil
      | some pd => exact hpend _ (assocLookup_mem u pd st.pending hl)
    constructor
    · intro p hp
      simp only [applyRefOp, createResult] at hp
      rcases assocSet_mem _ _ _ p hp with h | h
      · rw [h]
        exact hmoved
      · exact hres p h
    · intro p hp
      simp only [applyRefOp, createResult] at hp
      split at hp
      · exact hpend p (assocRemove_mem u st.pending p hp)
      · exact hpend p hp
  | track t s l =>
    show RefInvariant (trackReferringPage cfg st t s l)
    cases hl : assocLookup (fullNormalize cfg t) st.results with
    | some referring =>
      have hok : RefListOk referring :=
        hres _ (assocLookup_mem _ _ st.results hl)
      have hred : trackReferringPage cfg st t s l =
          (if referring.any (fun r => r.url = s) then st
           else if referring.length < 50 then
             { st with results :=
                 assocSet (fullNormalize cfg t) (referring ++ [⟨s, l⟩]) st.results }
           else st) := by
        simp only [trackReferringPage]
        rw [hl]
      rw [hred]
      by_cases hany : referring.any (fun r => r.url = s) = true
      · rw [if_pos hany]
        exact ⟨hres, hpend⟩
      · rw [if_neg (by simpa using hany)]
        by_cases hlen : referring.length < 50
        · rw [if_pos hlen]
          constructor
          · intro p hp
            dsimp only at hp
            rcases assocSet_mem _ _ _ p hp with h | h
            · rw [h]
              exact RefListOk_append_entry referring s l hok (by simpa using hany) hlen
            · exact hres p h
          · exact hpend
        · rw [if_neg hlen]
          exact ⟨hres, hpend⟩
    | none =>
      have hpd : RefListOk ((assocLookup (fullNormalize cfg t) st.pending).getD []) := by
        cases hl2 : assocLookup (fullNormalize cfg t) st.pending with
        | none => exact RefListOk_nil
        | some pd => exact hpend _ (assocLookup_mem _ pd st.pending hl2)
      have hred : trackReferringPage cfg st t s l =
          (if ((assocLookup (fullNormalize cfg t) st.pending).getD []).any
              (fun r => r.url = s) then
            { st with
                pending :=
                  assocSet (fullNormalize cfg t)
                    ((assocLookup (fullNormalize cfg t) st.pending).getD []) st.pending }
           else if ((assocLookup (fullNormalize cfg t) st.pending).getD []).length < 50 then
            { st with
                pending :=
                  assocSet (fullNormalize cfg t)
                    (((assocLookup (fullNormalize cfg t) st.pending).getD []) ++ [⟨s, l⟩])
                    st.pending }
           else
            { st with
                pending :=
                  assocSet (fullNormalize cfg t)
                    ((assocLookup (fullNormalize cfg t) st.pending).getD []) st.pending }) := by
        simp only [trackReferringPage]
        rw [hl]
      rw [hred]
      by_cases hany : ((assocLookup (fullNormalize cfg t) st.pending).getD []).any
          (fun r => r.url = s) = true
      · rw [if_pos hany]
        refine ⟨hres, ?_⟩
        intro p hp
        dsimp only at hp
        rcases assocSet_mem _ _ _ p hp with h | h
        · rw [h]
          exact hpd
        · exact hpend p h
      · rw [if_neg (by simpa using hany)]
        by_cases hlen : ((assocLookup (fullNormalize cfg t) st.pending).getD []).length < 50
        · rw [if_pos hlen]
          refine ⟨hres, ?_⟩
          intro p hp
          dsimp only at hp
          rcases assocSet_mem _ _ _ p hp with h | h
          · rw [h]
            exact RefListOk_append_entry _ s l hpd (by simpa using hany) hlen
          · exact hpend p h
        · rw [if_neg hlen]
          refine ⟨hres, ?_⟩
          intro p hp
          dsimp only at hp
          rcases assocSet_mem _ _ _ p hp with h | h
          · rw [h]
            exact hpd
          · exact hpend p h

/-- Claim C5.  After any sequence of referrer operations — tracking a referring
page (on both the direct-append path and the pending-buffer path) and creating
results (draining pending referrers) or `MAX_DEPTH` phantoms — every stored
`referring_pages` list and every pending list has pairwise distinct source URLs
and at most 50 entries. -/
theorem c5_referrers_dedup_cap (cfg : CrawlerCfg) (ops : List RefOp) :
    RefInvariant (runRefOps cfg ops) := by
  have aux : ∀ (ops2 : List RefOp) (st : RefState), RefInvariant st →
      RefInvariant (ops2.foldl (applyRefOp cfg) st) := by
    intro ops2
    induction ops2 with
    | nil =>
      intro st h
      exact h
    | cons op rest ih =>
      intro st h
      exact ih _ (applyRefOp_invariant cfg st op h)
  exact aux ops ⟨[], []⟩ ⟨fun p hp => absurd hp (List.not_mem_nil p),
    fun p hp => absurd hp (List.not_mem_nil p)⟩

/-! ## Claim C6: robots longest-prefix verdict -/

theorem robots_foldl_spec (path : List Nat) : ∀ (l : List (List Nat × Bool))
    (acc : List Nat × Bool), (∀ r ∈ l, r.1 ≠ []) →
    (l.foldl (fun (acc : List Nat × Bool) r =>
        if r.1.isPrefixOf path ∧ acc.1.length < r.1.length then (r.1, r.2) else acc) acc = acc ∧
      ∀ r ∈ l, r.1.isPrefixOf path = true → r.1.length ≤ acc.1.length) ∨
    (∃ r ∈ l, r.1.isPrefixOf path = true ∧
      l.foldl (fun (acc : List Nat × Bool) r =>
        if r.1.isPrefixOf path ∧ acc.1.length < r.1.length then (r.1, r.2) else acc) acc =
        (r.1, r.2) ∧
      (∀ r2 ∈ l, r2.1.isPrefixOf path = true → r2.1.length ≤ r.1.length) ∧
      acc.1.length < r.1.length) := by
  intro l
  induction l with
  | nil =>
    intro acc _
    left
    exact ⟨rfl, by simp⟩
  | cons r rest ih =>
    intro acc hne
    simp only [List.foldl_cons]
    by_cases hc : r.1.isPrefixOf path ∧ acc.1.length < r.1.length
    · rw [if_pos hc]
      rcases ih (r.1, r.2) (fun x hx => hne x (by simp [hx])) with
        ⟨heq, hmax⟩ | ⟨r2, hr2, hm2, heq2, hmax2, hlt2⟩
      · right
        refine ⟨r, by simp, hc.1, heq, ?_, hc.2⟩
        intro r2 hr2 hm2
        rcases List.mem_cons.mp hr2 with h | h
        · subst h
          exact le_refl _
        · exact hmax r2 h hm2
      · right
        refine ⟨r2, by simp [hr2], hm2, heq2, ?_, lt_trans hc.2 hlt2⟩
        intro r3 hr3 hm3
        rcases List.mem_cons.mp hr3 with h | h
        · subst h
          exact le_of_lt hlt2
        · exact hmax2 r3 h hm3
    · rw [if_neg hc]
      rcases ih acc (fun x hx => hne x (by simp [hx])) with
        ⟨heq, hmax⟩ | ⟨r2, hr2, hm2, heq2, hmax2, hlt2⟩
      · left
        refine ⟨heq, ?_⟩
        intro r2 hr2 hm2
        rcases List.mem_cons.mp hr2 with h | h
        · subst h
          by_contra hlt
          exact hc ⟨hm2, by omega⟩
        · exact hmax r2 h hm2
      · right
        refine ⟨r2, by simp [hr2], hm2, heq2, ?_, hlt2⟩
        intro r3 hr3 hm3
        rcases List.mem_cons.mp hr3 with h | h
        · subst h
          have hn3 : ¬ acc.1.length < r3.1.length := fun hl => hc ⟨hm3, hl⟩
          omega
        · exact hmax2 r3 h hm3

/-- Claim C6.  `RobotsChecker.is_allowed` implements the longest-prefix rule: an
empty ruleset (fetch failure, 404 or non-2xx load) allows everything; if no rule
path (rule paths are non-empty as `_parse` only stores non-empty ones) is a
prefix of the query path the URL is allowed; and if some rule path matches, the
verdict is that of a matching rule of maximal path length. -/
theorem c6_robots_longest_prefix (rules : List (List Nat × Bool)) (url : List Nat)
    (hne : ∀ r ∈ rules, r.1 ≠ []) :
    (rules = [] → robotsIsAllowed rules url = true) ∧
    ((∀ r ∈ rules, r.1.isPrefixOf (pyUrlparse url).path = false) →
      robotsIsAllowed rules url = true) ∧
    (∀ r0 ∈ rules, r0.1.isPrefixOf (pyUrlparse url).path = true →
      ∃ r ∈ rules, r.1.isPrefixOf (pyUrlparse url).path = true ∧
        robotsIsAllowed rules url = r.2 ∧
        ∀ r2 ∈ rules, r2.1.isPrefixOf (pyUrlparse url).path = true →
          r2.1.length ≤ r.1.length) := by
  refine ⟨?_, ?_, ?_⟩
  · intro hr
    simp only [robotsIsAllowed]
    rw [if_pos hr]
  · intro hnomatch
    by_cases hr : rules = []
    · simp only [robotsIsAllowed]
      rw [if_pos hr]
    · simp only [robotsIsAllowed]
      rw [if_neg hr]
      rcases robots_foldl_spec (pyUrlparse url).path rules ([], true) hne with
        ⟨heq, _⟩ | ⟨r2, hr2, hm2, _⟩
      · rw [heq]
      · exact absurd hm2 (by simp [hnomatch r2 hr2])
  · intro r0 hr0 hm0
    by_cases hr : rules = []
    · rw [hr] at hr0
      simp at hr0
    · rcases robots_foldl_spec (pyUrlparse url).path rules ([], true) hne with
        ⟨heq, hmax⟩ | ⟨r2, hr2, hm2, heq2, hmax2, hlt2⟩
      · have hle := hmax r0 hr0 hm0
        have hlen0 : r0.1.length = 0 := by simpa using hle
        exact absurd (List.eq_nil_of_length_eq_zero hlen0) (hne r0 hr0)
      · refine ⟨r2, hr2, hm2, ?_, hmax2⟩
        simp only [robotsIsAllowed]
        rw [if_neg hr, heq2]

/-- Witness for C6: for the rules Disallow `/a`, Allow `/` and the URL
`http://h/ab`, both paths match, the longest is `/a`, and the verdict is
disallow. -/
theorem c6_robots_longest_prefix_witness :
    (∀ r ∈ ([([47, 97], false), ([47], true)] : List (List Nat × Bool)), r.1 ≠ []) ∧
    ((([([47, 97], false), ([47], true)] : List (List Nat × Bool)) = [] →
      robotsIsAllowed [([47, 97], false), ([47], true)]
        [104, 116, 116, 112, 58, 47, 47, 104, 47, 97, 98] = true) ∧
    ((∀ r ∈ ([([47, 97], false), ([47], true)] : List (List Nat × Bool)),
        r.1.isPrefixOf (pyUrlparse [104, 116, 116, 112, 58, 47, 47, 104, 47, 97, 98]).path =
          false) →
      robotsIsAllowed [([47, 97], false), ([47], true)]
        [104, 116, 116, 112, 58, 47, 47, 104, 47, 97, 98] = true) ∧
    (∀ r0 ∈ ([([47, 97], false), ([47], true)] : List (List Nat × Bool)),
      r0.1.isPrefixOf (pyUrlparse [104, 116, 116, 112, 58, 47, 47, 104, 47, 97, 98]).path =
        true →
      ∃ r ∈ ([([47, 97], false), ([47], true)] : List (List Nat × Bool)),
        r.1.isPrefixOf (pyUrlparse [104, 116, 116, 112, 58, 47, 47, 104, 47, 97, 98]).path =
          true ∧
        robotsIsAllowed [([47, 97], false), ([47], true)]
          [104, 116, 116, 112, 58, 47, 47, 104, 47, 97, 98] = r.2 ∧
        ∀ r2 ∈ ([([47, 97], false), ([47], true)] : List (List Nat × Bool)),
          r2.1.isPrefixOf
            (pyUrlparse [104, 116, 116, 112, 58, 47, 47, 104, 47, 97, 98]).path = true →
          r2.1.length ≤ r.1.length)) :=
  ⟨by decide,
   c6_robots_longest_prefix [([47, 97], false), ([47], true)]
     [104, 116, 116, 112, 58, 47, 47, 104, 47, 97, 98] (by decide)⟩

/-! ## Claim C7: sitemap writer output shape -/

theorem chunksOf_50000_length {α : Type} : ∀ (n : Nat) (l : List α), l.length ≤ n →
    (chunksOf 50000 l).length = (l.length + 49999) / 50000 := by
  intro n
  induction n with
  | zero =>
    intro l hl
    have hnil : l = [] := List.eq_nil_of_length_eq_zero (by omega)
    subst hnil
    unfold chunksOf
    simp
  | succ n ih =>
    intro l hl
    unfold chunksOf
    by_cases he : l.isEmpty
    · rw [if_pos he]
      have hnil : l = [] := by simpa [List.isEmpty_iff] using he
      subst hnil
      simp
    · rw [if_neg he, if_neg (show ¬(50000 = 0) by decide)]
      have hlen : 1 ≤ l.length := by
        cases l with
        | nil => simp at he
        | cons a t => simp
      simp only [List.length_cons]
      rw [ih (l.drop 50000) (by simp only [List.length_drop]; omega)]
      simp only [List.length_drop]
      omega

theorem chunksOf_50000_le {α : Type} : ∀ (n : Nat) (l : List α), l.length ≤ n →
    ∀ ch ∈ chunksOf 50000 l, ch.length ≤ 50000 := by
  intro n
  induction n with
  | zero =>
    intro l hl ch hch
    have hnil : l = [] := List.eq_nil_of_length_eq_zero (by omega)
    subst hnil
    unfold chunksOf at hch
    simp at hch
  | succ n ih =>
    intro l hl ch hch
    unfold chunksOf at hch
    by_cases he : l.isEmpty
    · rw [if_pos he] at hch
      simp at hch
    · rw [if_neg he, if_neg (show ¬(50000 = 0) by decide)] at hch
      rcases List.mem_cons.mp hch with h | h
      · rw [h]
        simp only [List.length_take]
        omega
      · exact ih (l.drop 50000) (by simp only [List.length_drop]; omega) ch h

/-- Claim C7.  `SitemapWriter.write` filters to successful HTML results and then:
an empty filtered set writes nothing and returns no files; at most 50,000
results yield one `urlset` document at the given path; more yield exactly
`ceil(N / 50000)` part files named base-1.ext, base-2.ext, … in order, each a
`urlset` of one chunk of at most 50,000 results, plus a `sitemapindex` at the
given path whose loc entries are exactly the basenames of the part files in
order, the returned list being the index path followed by the part paths. -/
theorem c7_sitemap_write_shape (results : List PwCrawlResult) (outputPath : List Nat) :
    (results.filter (fun r => pwIsSuccessful r && writerIsHtml r) = [] →
      sitemapWrite results outputPath = ([], [])) ∧
    (results.filter (fun r => pwIsSuccessful r && writerIsHtml r) ≠ [] →
      (results.filter (fun r => pwIsSuccessful r && writerIsHtml r)).length ≤ 50000 →
      sitemapWrite results outputPath =
        ([(outputPath,
            .urlset (results.filter (fun r => pwIsSuccessful r && writerIsHtml r)))],
         [outputPath])) ∧
    (50000 < (results.filter (fun r => pwIsSuccessful r && writerIsHtml r)).length →
      sitemapWrite results outputPath =
        (((List.range
              (((results.filter (fun r => pwIsSuccessful r && writerIsHtml r)).length
                + 49999) / 50000)).map
            (fun i => partFileName (pySplitext outputPath).1 (pySplitext outputPath).2
              (i + 1))).zip
          ((chunksOf 50000 (results.filter (fun r => pwIsSuccessful r && writerIsHtml r))).map
            SitemapOut.urlset) ++
          [(outputPath, .sitemapindex
            (((List.range
                (((results.filter (fun r => pwIsSuccessful r && writerIsHtml r)).length
                  + 49999) / 50000)).map
              (fun i => partFileName (pySplitext outputPath).1 (pySplitext outputPath).2
                (i + 1))).map pyBasename))],
         outputPath ::
          ((List.range
              (((results.filter (fun r => pwIsSuccessful r && writerIsHtml r)).length
                + 49999) / 50000)).map
            (fun i => partFileName (pySplitext outputPath).1 (pySplitext outputPath).2
              (i + 1))))) ∧
    (∀ ch ∈ chunksOf 50000 (results.filter (fun r => pwIsSuccessful r && writerIsHtml r)),
      ch.length ≤ 50000) := by
  refine ⟨?_, ?_, ?_, ?_⟩
  · intro h1
    simp only [sitemapWrite]
    rw [if_pos h1]
  · intro h1 h2
    simp only [sitemapWrite, maxUrlsPerSitemap]
    rw [if_neg h1, if_pos h2]
  · intro h3
    simp only [sitemapWrite, maxUrlsPerSitemap]
    rw [if_neg (by
        intro he
        rw [he] at h3
        simp at h3),
      if_neg (by omega)]
    simp only [sitemapWriteIndex, maxUrlsPerSitemap]
    rw [chunksOf_50000_length
      (results.filter (fun r => pwIsSuccessful r && writerIsHtml r)).length
      (results.filter (fun r => pwIsSuccessful r && writerIsHtml r)) (le_refl _)]
  · exact chunksOf_50000_le
      (results.filter (fun r => pwIsSuccessful r && writerIsHtml r)).length
      (results.filter (fun r => pwIsSuccessful r && writerIsHtml r)) (le_refl _)

/-- Witness for C7: an empty result list writes nothing, and a single
successful HTML result yields one urlset at the output path. -/
theorem c7_sitemap_write_shape_witness :
    sitemapWrite ([] : List PwCrawlResult) [115] = ([], []) ∧
    sitemapWrite [⟨[104], .OK, [], [], 0⟩] [115] =
      ([([115], .urlset [⟨[104], .OK, [], [], 0⟩])], [[115]]) :=
  ⟨(c7_sitemap_write_shape [] [115]).1 rfl,
   (c7_sitemap_write_shape [⟨[104], .OK, [], [], 0⟩] [115]).2.1 (by decide) (by decide)⟩
